import Mathlib

/-!
# Memory allocation engines of `os_cp` (`src/memory_allocation.c`)

A shallow embedding of the two allocators and of the facade that dispatches to them.

Conventions of the embedding.

* The target is LP64 and little-endian: `size_t` and pointers are 8 bytes, `bool` is one
  byte.  Sums and differences of `size_t` values are reduced modulo `2 ^ 64` where the C code
  computes them.
* `int` is 32 bits wide.  The C expression `1 << k` shifts an `int`; for `k ≥ 31` its
  value is not representable and ISO C leaves the behaviour undefined.
* Addresses are natural numbers, `0` is the null pointer.  The address `malloc` returned
  for the pool is an input of the constructors; `0` stands for a failed `malloc`.
* `sizeof(BuddyBlock)` is the parameter `hdr` wherever the code writes `sizeof(BuddyBlock)`;
  it is 24 on the target.  The members of `BuddyBlock` are at the offsets of that layout:
  `order` at 0, `is_free` at 8, `next` at 16.
* Line 17 of `next_power_of_2` is compiled only if the preprocessor finds
  `SIZE_MAX > 0xFFFFFFFF`.  The translation unit includes `<stddef.h>`, `<stdbool.h>`,
  `<stdlib.h>`, `<stdio.h>`, `<string.h>`, `<time.h>` and `<math.h>`, but not `<stdint.h>`,
  which defines `SIZE_MAX`; whether the line is compiled therefore depends on the C library
  and is the parameter `wide` throughout (`false`: the line is left out).
* The buddy engine keeps its `BuddyBlock` headers and the `next` links of its free lists in
  the pool.  Memory is represented byte by byte; a header member is loaded from and stored to
  the bytes at its address, whatever was stored there before, so that headers of blocks
  shorter than a header overlap as they do in the pool.
* The segregated engine threads its free lists through the first word of each block; memory
  outside the records of the allocator is represented by the word stored at each address.
  The records, that is the descriptor and the arrays `free_lists` and `class_sizes`, lie in
  the same address space, at the addresses given by `MKRecords`: a store of `mk_free` through
  an address inside them changes the record stored there.
* A call has the outcome `Outcome.undefined` when it shifts `1` by 31 or more, reads a `bool`
  from a byte that is neither 0 nor 1, dereferences a null list head, walks a list that never
  ends, or, in `create_power_of_2_allocator`, writes the first header into a pool that is
  shorter than the header; in `mk_free`, when the store through the freed address is not
  aligned for a pointer or replaces one of the two array pointers of the descriptor.
-/

namespace OsCp

/-- Outcome of running a piece of C code: either the code has no result (its behaviour is
undefined or it does not return), or it runs to completion with a result. -/
inductive Outcome (α : Type) where
  | undefined : Outcome α
  | done : α → Outcome α

/-- Reduction of a natural number to the 64-bit `size_t`. -/
def size_wrap (n : Nat) : Nat := n % 2 ^ 64

/-- The C expression `1 << k` with `int` operand `1`, converted to `size_t`.  The result
`2 ^ k` is representable in `int` only for `k < 31`. -/
def int_shl1 (k : Nat) : Option Nat :=
  if k < 31 then some (2 ^ k) else none

/-- Source `next_power_of_2` (lines 8-20).  Line 17, `n |= n >> 32`, stands between
`#if SIZE_MAX > 0xFFFFFFFF` and `#endif`; `wide` is the value the preprocessor gives that
condition.  `SIZE_MAX` is a macro of `<stdint.h>`, which neither `memory_allocation.c` nor
`memory_allocation.h` includes: where no other header supplies it the identifier is replaced
by `0` and the condition is false, also on a target with a 64-bit `size_t`. -/
def next_power_of_2 (wide : Bool) (n : Nat) : Nat :=
  if n = 0 then 1
  else
    let n := n - 1
    let n := n ||| (n >>> 1)
    let n := n ||| (n >>> 2)
    let n := n ||| (n >>> 4)
    let n := n ||| (n >>> 8)
    let n := n ||| (n >>> 16)
    let n := if wide then n ||| (n >>> 32) else n
    size_wrap (n + 1)

/-- The `while (n > 1)` loop of `log2_size` (lines 24-27).  A 64-bit value is halved at most
64 times, which bounds the number of iterations. -/
def log2_size_loop : Nat → Nat → Nat → Nat
  | 0, _, result => result
  | fuel + 1, n, result =>
    if n > 1 then log2_size_loop fuel (n >>> 1) (result + 1) else result

/-- Source `log2_size` (lines 22-29). -/
def log2_size (n : Nat) : Nat := log2_size_loop 64 n 0


/-! ## Memory -/

/-- The byte stored at address `a`. -/
def load_byte (mem : Nat → Nat) (a : Nat) : Nat := mem a % 256

/-- The value of the 8 bytes at addresses `a` to `a + 7`, the lowest byte first: a load of a
`size_t` or of a pointer. -/
def load_word (mem : Nat → Nat) (a : Nat) : Nat :=
  load_byte mem a + 256 * (load_byte mem (a + 1) + 256 * (load_byte mem (a + 2) +
    256 * (load_byte mem (a + 3) + 256 * (load_byte mem (a + 4) +
    256 * (load_byte mem (a + 5) + 256 * (load_byte mem (a + 6) +
    256 * load_byte mem (a + 7)))))))

/-- Memory after a store of one byte at address `a`. -/
def store_byte (mem : Nat → Nat) (a v : Nat) : Nat → Nat :=
  fun x => if x = a then v % 256 else mem x

/-- Memory after a store of a `size_t` or a pointer at addresses `a` to `a + 7`, the lowest
byte first. -/
def store_word (mem : Nat → Nat) (a v : Nat) : Nat → Nat :=
  fun x => if a ≤ x ∧ x < a + 8 then v / 256 ^ (x - a) % 256 else mem x

/-- A load of a `bool`: the byte 0 is `false`, the byte 1 is `true`, and no other byte is the
representation of a `bool`. -/
def load_bool (mem : Nat → Nat) (a : Nat) : Option Bool :=
  if load_byte mem a = 0 then some false
  else if load_byte mem a = 1 then some true
  else none

/-! ## Buddy engine -/

/-- Member `order` of the header `BuddyBlock` (`memory_allocation.h`, lines 23-27) at
address `block`. -/
def block_order (mem : Nat → Nat) (block : Nat) : Nat := load_word mem block

/-- Member `is_free` of the header at address `block`, 8 bytes into the header. -/
def block_is_free (mem : Nat → Nat) (block : Nat) : Option Bool := load_bool mem (block + 8)

/-- Member `next` of the header at address `block`, 16 bytes into the header. -/
def block_next (mem : Nat → Nat) (block : Nat) : Nat := load_word mem (block + 16)

/-- Structure `PowerOf2Allocator` (`memory_allocation.h`, lines 29-35).  `free_lists k` is the
pointer stored in `free_lists[k]` (`0` for null) and `mem` is the memory the headers live in,
byte by byte. -/
structure PowerOf2Allocator where
  free_lists : Nat → Nat
  mem : Nat → Nat
  memory_pool : Nat
  total_size : Nat
  used_size : Nat
  max_order : Nat

/-- Source `create_power_of_2_allocator` (lines 159-189).  `pool` is the address returned by
`malloc(rounded_size)` and `mem` the contents of memory at that moment.  The result is `none`
(a null allocator) when that `malloc` failed; the allocations of the descriptor and of the
list heads are taken to succeed.  Writing the initial header into a pool shorter than the
header runs past the end of the allocation. -/
def create_power_of_2_allocator (wide : Bool) (hdr pool : Nat) (mem : Nat → Nat)
    (total_size : Nat) : Outcome (Option PowerOf2Allocator) :=
  let rounded_size := next_power_of_2 wide total_size
  if pool = 0 then .done none
  else if rounded_size < hdr then .undefined
  else
    let max_order := log2_size rounded_size
    let mem := store_word mem pool max_order
    let mem := store_byte mem (pool + 8) 1
    let mem := store_word mem (pool + 16) 0
    .done (some
      { free_lists := Function.update (fun _ => 0) max_order pool
        mem := mem
        memory_pool := pool
        total_size := rounded_size
        used_size := 0
        max_order := max_order })

/-- The search loop of `p2_allocate` (lines 201-204): the first order at or above
`current_order` whose free list is non-empty, or `max_order + 1`. -/
def find_order (p2 : PowerOf2Allocator) : Nat → Nat → Nat
  | 0, current_order => current_order
  | fuel + 1, current_order =>
    if current_order ≤ p2.max_order ∧ p2.free_lists current_order = 0 then
      find_order p2 fuel (current_order + 1)
    else current_order

/-- The split loop of `p2_allocate` (lines 208-226).  Each round pops the head of list
`current_order`, writes the headers of its two halves, in the order in which the source
assigns the members, and pushes the halves on the list below.  The loop does not compare the
size of a half with the size of a header. -/
def split_blocks (order : Nat) : Nat → PowerOf2Allocator → Nat → Outcome PowerOf2Allocator
  | 0, p2, _ => .done p2
  | fuel + 1, p2, current_order =>
    if current_order > order then
      let block := p2.free_lists current_order
      if block = 0 then .undefined
      else
        let lists := Function.update p2.free_lists current_order (block_next p2.mem block)
        let current_order := current_order - 1
        match int_shl1 current_order with
        | none => .undefined
        | some buddy_size =>
          let buddy1 := block
          let buddy2 := block + buddy_size
          let mem := store_word p2.mem buddy1 current_order
          let mem := store_byte mem (buddy1 + 8) 1
          let mem := store_word mem buddy2 current_order
          let mem := store_byte mem (buddy2 + 8) 1
          let mem := store_word mem (buddy1 + 16) buddy2
          let mem := store_word mem (buddy2 + 16) (lists current_order)
          let lists := Function.update lists current_order buddy1
          split_blocks order fuel { p2 with free_lists := lists, mem := mem } current_order
    else .done p2

/-- Source `p2_allocate` (lines 191-234).  The result pairs the new state with the returned
address (`0` for null). -/
def p2_allocate (wide : Bool) (hdr : Nat) (p2 : PowerOf2Allocator) (size : Nat) :
    Outcome (PowerOf2Allocator × Nat) :=
  if size = 0 then .done (p2, 0)
  else
    let total_size := size_wrap (size + hdr)
    let required_size := next_power_of_2 wide total_size
    let order := log2_size required_size
    if order > p2.max_order then .done (p2, 0)
    else
      let current_order := find_order p2 (p2.max_order + 1 - order) order
      if current_order > p2.max_order then .done (p2, 0)
      else
        match split_blocks order (current_order - order) p2 current_order with
        | .undefined => .undefined
        | .done q =>
          let block := q.free_lists order
          if block = 0 then .undefined
          else
            let lists := Function.update q.free_lists order (block_next q.mem block)
            let mem := store_byte q.mem (block + 8) 0
            match int_shl1 order with
            | none => .undefined
            | some block_size =>
              .done
                ({ q with
                    free_lists := lists
                    mem := mem
                    used_size := size_wrap (q.used_size + block_size) },
                  block + hdr)

/-- The list walk of `p2_free` (lines 281-284) from the block `prev` on: the walk follows
the `next` links until it meets null or `buddy`.  A list that closes on itself is walked
for ever; there are no more than `2 ^ 64` addresses, and `fuel` is set to that number. -/
def unlink_walk (buddy : Nat) (mem : Nat → Nat) : Nat → Nat → Option Nat
  | 0, _ => none
  | fuel + 1, prev =>
    if block_next mem prev ≠ 0 ∧ block_next mem prev ≠ buddy then
      unlink_walk buddy mem fuel (block_next mem prev)
    else some prev

/-- Removal of `buddy` from free list `order` in `p2_free` (lines 280-287): the first link
that points to `buddy`, in `free_lists[order]` or in a block of the list, is replaced by the
`next` link of `buddy`. -/
def unlink_buddy (p2 : PowerOf2Allocator) (order buddy : Nat) : Outcome PowerOf2Allocator :=
  if p2.free_lists order ≠ 0 ∧ p2.free_lists order ≠ buddy then
    match unlink_walk buddy p2.mem (2 ^ 64) (p2.free_lists order) with
    | none => .undefined
    | some prev =>
      if block_next p2.mem prev = buddy then
        .done { p2 with mem := store_word p2.mem (prev + 16) (block_next p2.mem buddy) }
      else .done p2
  else if p2.free_lists order = buddy then
    .done { p2 with
      free_lists := Function.update p2.free_lists order (block_next p2.mem buddy) }
  else .done p2

/-- The coalescing loop of `p2_free` (lines 259-294).  The result is the state together with
the address and order of the block that is left to be pushed on a free list. -/
def coalesce : Nat → PowerOf2Allocator → Nat → Nat → Outcome (PowerOf2Allocator × Nat × Nat)
  | 0, p2, block, order => .done (p2, block, order)
  | fuel + 1, p2, block, order =>
    if order < p2.max_order then
      match int_shl1 order with
      | none => .undefined
      | some block_size =>
        let block_offset := block - p2.memory_pool
        let buddy_offset := block_offset ^^^ block_size
        if buddy_offset ≥ p2.total_size then .done (p2, block, order)
        else
          let buddy := p2.memory_pool + buddy_offset
          match block_is_free p2.mem buddy with
          | none => .undefined
          | some false => .done (p2, block, order)
          | some true =>
            if block_order p2.mem buddy ≠ order then .done (p2, block, order)
            else
              match unlink_buddy p2 order buddy with
              | .undefined => .undefined
              | .done q =>
                let block := if buddy < block then buddy else block
                coalesce fuel { q with mem := store_word q.mem block (order + 1) } block
                  (order + 1)
    else .done (p2, block, order)

/-- Source `p2_free` (lines 236-299).  The argument `size` is ignored, as in the source. -/
def p2_free (hdr : Nat) (p2 : PowerOf2Allocator) (ptr : Nat) (_size : Nat) :
    Outcome PowerOf2Allocator :=
  if ptr = 0 then .done p2
  else if ptr < p2.memory_pool + hdr ∨ ptr ≥ p2.memory_pool + p2.total_size then .done p2
  else
    let block := ptr - hdr
    if block < p2.memory_pool ∨ block ≥ p2.memory_pool + p2.total_size then .done p2
    else
      match block_is_free p2.mem block with
      | none => .undefined
      | some true => .done p2
      | some false =>
        let order := block_order p2.mem block
        let mem := store_byte p2.mem (block + 8) 1
        match int_shl1 order with
        | none => .undefined
        | some block_size =>
          let p2a : PowerOf2Allocator :=
            { p2 with
                mem := mem
                used_size := size_wrap (p2.used_size + 2 ^ 64 - block_size) }
          match coalesce (p2a.max_order - order) p2a block order with
          | .undefined => .undefined
          | .done (q, block, order) =>
            .done { q with
              mem := store_word q.mem (block + 16) (q.free_lists order)
              free_lists := Function.update q.free_lists order block }

/-! ## Segregated size-class engine -/

/-- Structure `McKusickKarelsAllocator` (`memory_allocation.h`, lines 13-20).  `free_lists c` is
the head address of class `c` (`0` when the list is empty), `class_sizes` holds the entries the
constructor wrote, and `link a` is the word stored at address `a`, which a free block uses for
the address of its successor. -/
structure McKusickKarelsAllocator where
  free_lists : Nat → Nat
  class_sizes : List Nat
  link : Nat → Nat
  memory_pool : Nat
  total_size : Nat
  used_size : Nat
  num_classes : Nat

/-- Constant `MK_NUM_SIZE_CLASSES` (`memory_allocation.h`, line 12). -/
def MK_NUM_SIZE_CLASSES : Nat := 32

/-- The class-size loop of `create_mk_allocator` (lines 58-70): the entries written to
`class_sizes`, starting at index `i`.  The number of entries is the final `num_classes`. -/
def mk_class_sizes (max_size_class : Nat) : Nat → Nat → List Nat
  | 0, _ => []
  | fuel + 1, i =>
    if i ≥ 60 then []
    else
      let size_class := size_wrap (16 <<< i)
      if size_class > max_size_class then []
      else size_class :: mk_class_sizes max_size_class fuel (i + 1)

/-- The inner carving loop of `create_mk_allocator` (lines 87-106) for one class: `fuel` is the
number of blocks still to place, the last component of the state is the running `offset`. -/
def mk_carve_blocks (pool total_size class_idx block_size : Nat) :
    Nat → (Nat → Nat) × (Nat → Nat) × Nat → (Nat → Nat) × (Nat → Nat) × Nat
  | 0, st => st
  | fuel + 1, (free_lists, link, offset) =>
    if size_wrap (offset + block_size) ≤ total_size then
      let alignment := 8
      let aligned_offset := size_wrap (offset + alignment - 1) &&& (2 ^ 64 - alignment)
      if size_wrap (aligned_offset + block_size) > total_size then (free_lists, link, offset)
      else
        let block := pool + aligned_offset
        mk_carve_blocks pool total_size class_idx block_size fuel
          (Function.update free_lists class_idx block,
            Function.update link block (free_lists class_idx),
            size_wrap (aligned_offset + block_size))
    else (free_lists, link, offset)

/-- The outer carving loop of `create_mk_allocator` (lines 75-107) over the classes that are
left, the first of which has index `class_idx`. -/
def mk_carve_classes (pool total_size : Nat) :
    List Nat → Nat → (Nat → Nat) × (Nat → Nat) × Nat → (Nat → Nat) × (Nat → Nat) × Nat
  | [], _, st => st
  | block_size :: sizes, class_idx, (free_lists, link, offset) =>
    if offset < total_size then
      if block_size < 8 then
        mk_carve_classes pool total_size sizes (class_idx + 1) (free_lists, link, offset)
      else
        let num_blocks := (total_size / 10) / block_size
        let num_blocks := if num_blocks = 0 then 1 else num_blocks
        let num_blocks := if num_blocks > 100 then 100 else num_blocks
        mk_carve_classes pool total_size sizes (class_idx + 1)
          (mk_carve_blocks pool total_size class_idx block_size num_blocks
            (free_lists, link, offset))
    else (free_lists, link, offset)

/-- Source `create_mk_allocator` (lines 31-110).  `pool` is the address returned by
`malloc(total_size)` (`0` when an allocation failed) and `words` the contents of the fresh
pool. -/
def create_mk_allocator (pool : Nat) (words : Nat → Nat) (total_size : Nat) :
    Option McKusickKarelsAllocator :=
  if pool = 0 then none
  else
    let max_size_class := total_size / 2
    let class_sizes := mk_class_sizes max_size_class MK_NUM_SIZE_CLASSES 0
    let carved := mk_carve_classes pool total_size class_sizes 0 (fun _ => 0, words, 0)
    some
      { free_lists := carved.1
        class_sizes := class_sizes
        link := carved.2.1
        memory_pool := pool
        total_size := total_size
        used_size := 0
        num_classes := class_sizes.length }

/-- The class scan shared by `mk_allocate` (lines 115-118) and `mk_free` (lines 138-141). -/
def mk_class_index (mk : McKusickKarelsAllocator) (size : Nat) : Nat → Nat → Nat
  | 0, class_idx => class_idx
  | fuel + 1, class_idx =>
    if class_idx < mk.num_classes ∧ mk.class_sizes.getD class_idx 0 < size then
      mk_class_index mk size fuel (class_idx + 1)
    else class_idx

/-- Source `mk_allocate` (lines 112-133); the returned address is `0` for null. -/
def mk_allocate (mk : McKusickKarelsAllocator) (size : Nat) : McKusickKarelsAllocator × Nat :=
  if size = 0 then (mk, 0)
  else
    let class_idx := mk_class_index mk size mk.num_classes 0
    if class_idx ≥ mk.num_classes then (mk, 0)
    else if mk.free_lists class_idx ≠ 0 then
      let block := mk.free_lists class_idx
      ({ mk with
          free_lists := Function.update mk.free_lists class_idx (mk.link block)
          used_size := size_wrap (mk.used_size + mk.class_sizes.getD class_idx 0) },
        block)
    else (mk, 0)


/-- Where the records of a segregated allocator lie: the addresses that `malloc` and `calloc`
returned in `create_mk_allocator` for the descriptor (line 32) and for the arrays
`free_lists` and `class_sizes` (lines 45-46), each with room for `MK_NUM_SIZE_CLASSES`
entries. -/
structure MKRecords where
  self : Nat
  lists : Nat
  sizes : Nat

/-- The store `*block = value` of `mk_free` (line 146) through the address `ptr`, which
writes the 8 bytes from `ptr` on.  An address that is not a multiple of 8 is not the address
of a pointer.  A store that meets the array `free_lists` or the array `class_sizes` changes
the entry at `ptr`, and a store that meets the descriptor changes the member at `ptr`
(`memory_allocation.h`, lines 13-20: `memory_pool`, `total_size`, `used_size` and
`num_classes` at the offsets 16, 24, 32 and 40); an entry of `class_sizes` at or above the
number of entries the constructor wrote is not part of the state.  A store that covers an
entry or a member only in part, or that replaces one of the members `free_lists` and
`class_sizes` of the descriptor, at the offsets 0 and 8, and so moves an array to where
`value` points, leaves a state that this type cannot express.  Every other store changes
the word at `ptr`. -/
def mk_store (records : MKRecords) (mk : McKusickKarelsAllocator) (ptr value : Nat) :
    Outcome McKusickKarelsAllocator :=
  if ptr % 8 ≠ 0 then .undefined
  else if records.lists < ptr + 8 ∧ ptr < records.lists + 8 * MK_NUM_SIZE_CLASSES then
    if records.lists ≤ ptr ∧ (ptr - records.lists) % 8 = 0 then
      .done { mk with
        free_lists := Function.update mk.free_lists ((ptr - records.lists) / 8) value }
    else .undefined
  else if records.sizes < ptr + 8 ∧ ptr < records.sizes + 8 * MK_NUM_SIZE_CLASSES then
    if records.sizes ≤ ptr ∧ (ptr - records.sizes) % 8 = 0 then
      .done { mk with class_sizes := mk.class_sizes.set ((ptr - records.sizes) / 8) value }
    else .undefined
  else if records.self < ptr + 8 ∧ ptr < records.self + 48 then
    if ptr = records.self + 16 then .done { mk with memory_pool := value }
    else if ptr = records.self + 24 then .done { mk with total_size := value }
    else if ptr = records.self + 32 then .done { mk with used_size := value }
    else if ptr = records.self + 40 then .done { mk with num_classes := value }
    else .undefined
  else .done { mk with link := Function.update mk.link ptr value }

/-- Source `mk_free` (lines 135-149).  The class is selected before the store through `ptr`;
the head of the list and `used_size` are written after it, from the records as the store
left them. -/
def mk_free (records : MKRecords) (mk : McKusickKarelsAllocator) (ptr size : Nat) :
    Outcome McKusickKarelsAllocator :=
  if ptr = 0 then .done mk
  else
    let class_idx := mk_class_index mk size mk.num_classes 0
    if class_idx ≥ mk.num_classes then .done mk
    else
      match mk_store records mk ptr (mk.free_lists class_idx) with
      | .undefined => .undefined
      | .done stored =>
        .done { stored with
          free_lists := Function.update stored.free_lists class_idx ptr
          used_size :=
            size_wrap (stored.used_size + 2 ^ 64 - stored.class_sizes.getD class_idx 0) }

/-! ## Facade -/

/-- Enumeration `AllocationAlgorithm` (`memory_allocation.h`, lines 7-10). -/
inductive AllocationAlgorithm where
  | MCKUSICK_KARELS
  | POWER_OF_2
  deriving DecidableEq, Repr

/-- Structure `MemoryAllocator` (`memory_allocation.h`, lines 37-40): the type tag together
with the engine it selects. -/
inductive MemoryAllocator where
  | mckusick_karels (mk : McKusickKarelsAllocator)
  | power_of_2 (p2 : PowerOf2Allocator)

/-- Source `create_allocator` (lines 308-329); `none` is the null handle. -/
def create_allocator (wide : Bool) (hdr pool : Nat) (words : Nat → Nat)
    (mem : Nat → Nat) (type : AllocationAlgorithm) (total_size : Nat) :
    Outcome (Option MemoryAllocator) :=
  match type with
  | .MCKUSICK_KARELS =>
    .done ((create_mk_allocator pool words total_size).map MemoryAllocator.mckusick_karels)
  | .POWER_OF_2 =>
    match create_power_of_2_allocator wide hdr pool mem total_size with
    | .undefined => .undefined
    | .done r => .done (r.map MemoryAllocator.power_of_2)

/-- Source `allocate_memory` (lines 343-353). -/
def allocate_memory (wide : Bool) (hdr : Nat) (allocator : Option MemoryAllocator)
    (size : Nat) : Outcome (Option MemoryAllocator × Nat) :=
  match allocator with
  | none => .done (none, 0)
  | some (.mckusick_karels mk) =>
    .done (some (.mckusick_karels (mk_allocate mk size).1), (mk_allocate mk size).2)
  | some (.power_of_2 p2) =>
    match p2_allocate wide hdr p2 size with
    | .undefined => .undefined
    | .done (q, ptr) => .done (some (.power_of_2 q), ptr)

/-- Source `free_memory` (lines 355-363). -/
def free_memory (hdr : Nat) (records : MKRecords) (allocator : Option MemoryAllocator)
    (ptr size : Nat) : Outcome (Option MemoryAllocator) :=
  match allocator with
  | none => .done none
  | some a =>
    if ptr = 0 then .done (some a)
    else
      match a with
      | .mckusick_karels mk =>
        match mk_free records mk ptr size with
        | .undefined => .undefined
        | .done q => .done (some (.mckusick_karels q))
      | .power_of_2 p2 =>
        match p2_free hdr p2 ptr size with
        | .undefined => .undefined
        | .done q => .done (some (.power_of_2 q))

/-! ## The quantities the properties speak about -/

/-- The order `p2_allocate` computes for a request of `size` bytes (lines 194-197). -/
def p2_order (wide : Bool) (hdr size : Nat) : Nat :=
  log2_size (next_power_of_2 wide (size_wrap (size + hdr)))

/-- The blocks of a free list of the buddy engine, head first: the addresses met when
following the `next` links from `head` until the null link.  `fuel` bounds the number of
blocks visited. -/
def buddy_chain (mem : Nat → Nat) : Nat → Nat → List Nat
  | 0, _ => []
  | fuel + 1, head => if head = 0 then [] else head :: buddy_chain mem fuel (block_next mem head)

/-- The blocks on free list `k` of a buddy allocator, head first.  A list of blocks that do
not overlap has at most `total_size` blocks. -/
def p2_free_list (p2 : PowerOf2Allocator) (k : Nat) : List Nat :=
  buddy_chain p2.mem (p2.total_size + 1) (p2.free_lists k)

/-- Bytes held by the free lists of orders below `n`: the sum over `k < n` of the number of
blocks in list `k` times `2 ^ k`. -/
def free_bytes (p2 : PowerOf2Allocator) : Nat → Nat
  | 0 => 0
  | n + 1 => free_bytes p2 n + (p2_free_list p2 n).length * 2 ^ n

/-- Two byte ranges `[start, stop)`, given as pairs, have no byte in common. -/
def ranges_disjoint (r1 r2 : Nat × Nat) : Prop := r1.2 ≤ r2.1 ∨ r2.2 ≤ r1.1

/-- The range of pool offsets of the buddy block whose payload starts at address `ptr`: the
block starts `sizeof(BuddyBlock)` bytes before `ptr` and extends over `2 ^ order` bytes, with
`order` read from its header. -/
def p2_block_range (hdr : Nat) (p2 : PowerOf2Allocator) (ptr : Nat) : Nat × Nat :=
  (ptr - hdr - p2.memory_pool,
    ptr - hdr - p2.memory_pool + 2 ^ block_order p2.mem (ptr - hdr))

/-- The allocation phase of `benchmark_algorithm` (lines 417-449) on a buddy allocator: one
call of `p2_allocate` for each requested size, in order.  The second component lists the
returned addresses (`allocated_ptrs`), null for a request that failed. -/
def allocation_phase (wide : Bool) (hdr : Nat) :
    PowerOf2Allocator → List Nat → Outcome (PowerOf2Allocator × List Nat)
  | p2, [] => .done (p2, [])
  | p2, size :: sizes =>
    match p2_allocate wide hdr p2 size with
    | .undefined => .undefined
    | .done (q, ptr) =>
      match allocation_phase wide hdr q sizes with
      | .undefined => .undefined
      | .done (r, ptrs) => .done (r, ptr :: ptrs)

/-- The release phase of `benchmark_algorithm` (lines 461-469) on a buddy allocator: one call
of `p2_free` for each entry whose address is not null, in the order of the list.  An entry
pairs an address with the size passed along with it. -/
def release_phase (hdr : Nat) : PowerOf2Allocator → List (Nat × Nat) → Outcome PowerOf2Allocator
  | p2, [] => .done p2
  | p2, (ptr, size) :: rest =>
    if ptr = 0 then release_phase hdr p2 rest
    else
      match p2_free hdr p2 ptr size with
      | .undefined => .undefined
      | .done q => release_phase hdr q rest

/-- Contents of memory before the buddy pool of the worked examples is created. -/
def demo_mem : Nat → Nat := fun _ => 0

/-- Contents of an untouched segregated pool in the worked examples. -/
def demo_words : Nat → Nat := fun _ => 0

/-- The fresh 1024-byte buddy pool at address 4096 of the worked examples. -/
def demo_pool : PowerOf2Allocator :=
  { free_lists := Function.update (fun _ => 0) 10 4096
    mem := store_word (store_byte (store_word demo_mem 4096 10) (4096 + 8) 1) (4096 + 16) 0
    memory_pool := 4096
    total_size := 1024
    used_size := 0
    max_order := 10 }

/-- The records of the segregated allocator of the worked examples: the descriptor at address
8192, the array `free_lists` at 8448 and the array `class_sizes` at 8704. -/
def demo_records : MKRecords := { self := 8192, lists := 8448, sizes := 8704 }

/-- The blocks of a free list of the segregated engine, head first: the addresses met when
following the links from `head` until the null link.  `fuel` bounds the number of blocks
visited. -/
def mk_chain (link : Nat → Nat) : Nat → Nat → List Nat
  | 0, _ => []
  | fuel + 1, head => if head = 0 then [] else head :: mk_chain link fuel (link head)

/-- The addresses `base + (count - 1) * block_size, ..., base + block_size, base`: a run of
`count` adjacent blocks of `block_size` bytes, the highest first. -/
def block_run (base block_size : Nat) : Nat → List Nat
  | 0 => []
  | count + 1 => (base + count * block_size) :: block_run base block_size count

/-- The carving of the segregated pool in the words of the specification: a class with blocks
of `block_size` bytes gets the smaller of `(total_size / 10) / block_size` clamped to the
range from 1 to 100 and the number of blocks of that size that fit between the running
offset and `total_size`.  The result lists, class by class, the running offset at which the
class starts and the number of its blocks. -/
def expected_carving (total_size : Nat) : List Nat → Nat → List (Nat × Nat)
  | [], _ => []
  | block_size :: sizes, offset =>
    let wanted := max 1 (min 100 (total_size / 10 / block_size))
    let fit := (total_size - offset) / block_size
    let count := min wanted fit
    (offset, count) :: expected_carving total_size sizes (offset + count * block_size)

/-- A null-terminated chain of free blocks of the segregated engine: following the links from
`head` visits exactly the addresses of the list, in order, and then reaches the null link. -/
inductive MkList (link : Nat → Nat) : Nat → List Nat → Prop where
  | nil : MkList link 0 []
  | cons (head : Nat) (rest : List Nat) :
      head ≠ 0 → MkList link (link head) rest → MkList link head (head :: rest)

/-- The addresses of the blocks that the constructor carves for class `i`, from the fields of
the allocator: the run of adjacent blocks of entry `i` of the expected carving. -/
def mk_run (mk : McKusickKarelsAllocator) (i : Nat) : List Nat :=
  block_run
    (mk.memory_pool + ((expected_carving mk.total_size mk.class_sizes 0).getD i (0, 0)).1)
    (mk.class_sizes.getD i 0)
    ((expected_carving mk.total_size mk.class_sizes 0).getD i (0, 0)).2

/-- The class index at which the scan of `mk_allocate` and `mk_free` stops for `size`. -/
def mk_class_of (mk : McKusickKarelsAllocator) (size : Nat) : Nat :=
  mk_class_index mk size mk.num_classes 0


/-- The word at the address `ptr`, 8 bytes long, lies outside the records of the allocator: it
has no byte in common with the arrays `free_lists` and `class_sizes`, of 32 entries each,
and none with the descriptor, of 48 bytes. -/
def mk_outside_records (records : MKRecords) (ptr : Nat) : Prop :=
  ¬(records.lists < ptr + 8 ∧ ptr < records.lists + 8 * MK_NUM_SIZE_CLASSES) ∧
  ¬(records.sizes < ptr + 8 ∧ ptr < records.sizes + 8 * MK_NUM_SIZE_CLASSES) ∧
  ¬(records.self < ptr + 8 ∧ ptr < records.self + 48)

/-- The size of the blocks of the class that serves a request of `size` bytes. -/
def mk_block_size (mk : McKusickKarelsAllocator) (size : Nat) : Nat :=
  mk.class_sizes.getD (mk_class_of mk size) 0

/-- Histories of a segregated allocator that is used with matching sizes: the pool is
aligned for pointers and apart from the records of the allocator, as memory obtained from
`malloc` is; the calls are calls of `mk_allocate`, and calls of `mk_free` on an address that
`mk_allocate` returned and that has not been freed since, with a size of the class of the
size it was requested with.  The list holds the live addresses, each with the size of its
request. -/
inductive MKTrace (records : MKRecords) :
    McKusickKarelsAllocator → List (Nat × Nat) → Prop where
  | create (pool : Nat) (words : Nat → Nat) (total_size : Nat)
      (mk : McKusickKarelsAllocator) :
      pool % 8 = 0 →
      (∀ a, pool ≤ a → a + 8 ≤ pool + total_size → mk_outside_records records a) →
      create_mk_allocator pool words total_size = some mk → MKTrace records mk []
  | allocate (mk : McKusickKarelsAllocator) (live : List (Nat × Nat)) (size : Nat) :
      MKTrace records mk live →
      MKTrace records (mk_allocate mk size).1
        (if (mk_allocate mk size).2 = 0 then live else ((mk_allocate mk size).2, size) :: live)
  | free (mk : McKusickKarelsAllocator) (live : List (Nat × Nat)) (ptr size size2 : Nat)
      (q : McKusickKarelsAllocator) :
      MKTrace records mk live → (ptr, size) ∈ live →
      mk_class_of mk size2 = mk_class_of mk size →
      mk_free records mk ptr size2 = .done q →
      MKTrace records q (live.erase (ptr, size))

/-- The invariant of the segregated engine under use with matching sizes: `chains i` lists the
blocks of free list `i`; every block of list `i` and every live block of class `i` is one of
the blocks carved for class `i`, and no block is on a list twice, live twice, or both. -/
structure MKInv (records : MKRecords) (mk : McKusickKarelsAllocator)
    (live : List (Nat × Nat)) (chains : Nat → List Nat) : Prop where
  num : mk.num_classes = mk.class_sizes.length
  sizes : ∀ bs, bs ∈ mk.class_sizes → 8 ≤ bs ∧ 8 ∣ bs
  pool_pos : 0 < mk.memory_pool
  aligned : mk.memory_pool % 8 = 0
  apart_records : ∀ a, mk.memory_pool ≤ a → a + 8 ≤ mk.memory_pool + mk.total_size →
    mk_outside_records records a
  chain : ∀ i, i < mk.num_classes → MkList mk.link (mk.free_lists i) (chains i)
  chain_run : ∀ i, i < mk.num_classes → ∀ x, x ∈ chains i → x ∈ mk_run mk i
  chain_nodup : ∀ i, i < mk.num_classes → (chains i).Nodup
  live_run : ∀ p s, (p, s) ∈ live →
    mk_class_of mk s < mk.num_classes ∧ p ∈ mk_run mk (mk_class_of mk s)
  live_nodup : (live.map Prod.fst).Nodup
  apart : ∀ i, i < mk.num_classes → ∀ p s, (p, s) ∈ live → p ∉ chains i

/-! ## Arithmetic of `next_power_of_2` and `log2_size` -/

theorem testBit_or_shift (y a i : Nat) :
    (y ||| (y >>> a)).testBit i = true ↔ y.testBit i = true ∨ y.testBit (a + i) = true := by
  simp [Nat.testBit_or, Nat.testBit_shiftRight]

theorem smear_step (x y a : Nat)
    (h : ∀ i, y.testBit i = true ↔ ∃ j, j < a ∧ x.testBit (i + j) = true) (i : Nat) :
    (y ||| (y >>> a)).testBit i = true ↔ ∃ j, j < 2 * a ∧ x.testBit (i + j) = true := by
  rw [testBit_or_shift, h, h]
  constructor
  · rintro (⟨j, hj, hb⟩ | ⟨j, hj, hb⟩)
    · exact ⟨j, by omega, hb⟩
    · exact ⟨a + j, by omega, by rw [← hb]; congr 1; omega⟩
  · rintro ⟨j, hj, hb⟩
    by_cases hja : j < a
    · exact Or.inl ⟨j, hja, hb⟩
    · exact Or.inr ⟨j - a, by omega, by rw [← hb]; congr 1; omega⟩

/-- The first five or-shift steps of `next_power_of_2` applied to `x`. -/
theorem smear5_testBit (x i : Nat) :
    let y1 := x ||| (x >>> 1)
    let y2 := y1 ||| (y1 >>> 2)
    let y3 := y2 ||| (y2 >>> 4)
    let y4 := y3 ||| (y3 >>> 8)
    let y5 := y4 ||| (y4 >>> 16)
    y5.testBit i = true ↔ ∃ j, j < 32 ∧ x.testBit (i + j) = true := by
  intro y1 y2 y3 y4 y5
  have h0 : ∀ i, x.testBit i = true ↔ ∃ j, j < 1 ∧ x.testBit (i + j) = true := by
    intro i
    constructor
    · intro h; exact ⟨0, by omega, by simpa using h⟩
    · rintro ⟨j, hj, hb⟩
      have : j = 0 := by omega
      subst this; simpa using hb
  have h1 := smear_step x x 1 h0
  have h2 := smear_step x y1 2 h1
  have h3 := smear_step x y2 4 h2
  have h4 := smear_step x y3 8 h3
  have h5 := smear_step x y4 16 h4
  exact h5 i

/-- The six or-shift steps of `next_power_of_2` applied to `x`. -/
theorem smear_testBit (x i : Nat) :
    let y1 := x ||| (x >>> 1)
    let y2 := y1 ||| (y1 >>> 2)
    let y3 := y2 ||| (y2 >>> 4)
    let y4 := y3 ||| (y3 >>> 8)
    let y5 := y4 ||| (y4 >>> 16)
    let y6 := y5 ||| (y5 >>> 32)
    y6.testBit i = true ↔ ∃ j, j < 64 ∧ x.testBit (i + j) = true := by
  intro y1 y2 y3 y4 y5 y6
  exact smear_step x y5 32 (smear5_testBit x) i

/-- A value whose bits are those of `x` smeared over a window that reaches past the top bit
of `x` is all ones below that top bit. -/
theorem smear_fill (x y b : Nat) (hx : x < 2 ^ b)
    (h : ∀ i, y.testBit i = true ↔ ∃ j, j < b ∧ x.testBit (i + j) = true) :
    y = 2 ^ x.size - 1 := by
  have hk : x.size ≤ b := Nat.size_le.mpr hx
  apply Nat.eq_of_testBit_eq
  intro i
  rw [Nat.testBit_two_pow_sub_one]
  by_cases hi : i < x.size
  · have : y.testBit i = true := by
      refine (h i).mpr ⟨x.size - 1 - i, by omega, ?_⟩
      have e : i + (x.size - 1 - i) = x.size - 1 := by omega
      rw [e, Nat.testBit_to_div_mod]
      have h1 : 2 ^ (x.size - 1) ≤ x := Nat.lt_size.mp (by omega)
      have h2 : x < 2 ^ x.size := Nat.lt_size_self x
      have h3 : x / 2 ^ (x.size - 1) = 1 := by
        apply Nat.div_eq_of_lt_le
        · simpa using h1
        · have : 2 ^ x.size = 2 ^ (x.size - 1) * 2 := by
            rw [← pow_succ]; congr 1; omega
          omega
      simp [h3]
    simp [this, hi]
  · have : y.testBit i = false := by
      by_contra hc
      have hc : y.testBit i = true := by simpa using hc
      obtain ⟨j, -, hb⟩ := (h i).mp hc
      have := Nat.testBit_implies_ge hb
      have : i + j < x.size := Nat.lt_size.mpr this
      omega
    simp [this, hi]

/-- Below the reach of the or-shift steps that are compiled, `next_power_of_2` returns
`2 ^ size (n - 1)` reduced to `size_t`. -/
theorem next_power_of_2_eq {wide : Bool} (n : Nat) (h0 : n ≠ 0) (hn : n - 1 < 2 ^ 64)
    (hw : wide = true ∨ n - 1 < 2 ^ 32) :
    next_power_of_2 wide n = size_wrap (2 ^ (n - 1).size) := by
  have hpos : 0 < 2 ^ (n - 1).size := Nat.pos_pow_of_pos _ (by omega)
  simp only [next_power_of_2, h0, if_false]
  cases wide with
  | true =>
    simp only [if_true]
    rw [smear_fill (n - 1) _ 64 hn (smear_testBit (n - 1)), Nat.sub_add_cancel hpos]
  | false =>
    have h32 : n - 1 < 2 ^ 32 := by
      rcases hw with h | h
      · exact absurd h (by decide)
      · exact h
    simp only [Bool.false_eq_true, if_false]
    rw [smear_fill (n - 1) _ 32 h32 (smear5_testBit (n - 1)), Nat.sub_add_cancel hpos]

theorem next_power_of_2_spec {wide : Bool} (n : Nat) (hn : n ≤ 2 ^ 63)
    (hw : wide = true ∨ n ≤ 2 ^ 32) :
    ∃ k, k ≤ 63 ∧ next_power_of_2 wide n = 2 ^ k ∧ n ≤ 2 ^ k ∧ ∀ j, n ≤ 2 ^ j → k ≤ j := by
  by_cases h0 : n = 0
  · subst h0
    exact ⟨0, by omega, by simp [next_power_of_2], by simp, by intro j _; omega⟩
  · have hx : n - 1 < 2 ^ 63 := by omega
    have hk : (n - 1).size ≤ 63 := Nat.size_le.mpr hx
    have hlt : (2 : Nat) ^ (n - 1).size < 2 ^ 64 :=
      Nat.pow_lt_pow_right (by omega) (by omega)
    refine ⟨(n - 1).size, hk, ?_, ?_, ?_⟩
    · rw [next_power_of_2_eq n h0 (by omega) (hw.imp id (fun h => by omega)), size_wrap,
        Nat.mod_eq_of_lt hlt]
    · have := Nat.lt_size_self (n - 1)
      omega
    · intro j hj
      apply Nat.size_le.mpr
      have : 0 < 2 ^ j := Nat.pos_pow_of_pos _ (by omega)
      omega

theorem next_power_of_2_overflow (n : Nat) (h1 : 2 ^ 63 < n) (h2 : n < 2 ^ 64) :
    next_power_of_2 true n = 0 := by
  have h0 : n ≠ 0 := by omega
  have hx64 : n - 1 < 2 ^ 64 := by omega
  have hk : (n - 1).size ≤ 64 := Nat.size_le.mpr hx64
  have hk2 : 63 < (n - 1).size := Nat.lt_size.mpr (by omega)
  have e : (n - 1).size = 64 := by omega
  rw [next_power_of_2_eq n h0 hx64 (Or.inl rfl), e, size_wrap]
  norm_num

theorem or_shift_bounds (x a b : Nat) (hx : x < 2 ^ b) :
    x ≤ x ||| (x >>> a) ∧ x ||| (x >>> a) < 2 ^ b := by
  have h1 : x &&& (x ||| (x >>> a)) = x := by
    apply Nat.eq_of_testBit_eq
    intro i
    simp only [Nat.testBit_and, Nat.testBit_or]
    cases x.testBit i <;> simp
  have h2 : x &&& (x ||| (x >>> a)) ≤ x ||| (x >>> a) := Nat.and_le_right
  have h3 : x >>> a ≤ x := by
    rw [Nat.shiftRight_eq_div_pow]
    exact Nat.div_le_self _ _
  exact ⟨by omega, Nat.or_lt_two_pow hx (lt_of_le_of_lt h3 hx)⟩

/-- With or without line 17, `next_power_of_2` of a non-zero `n` is the successor, reduced to
`size_t`, of a value between `n - 1` and the next power of two above `n - 1`. -/
theorem next_power_of_2_bounds (wide : Bool) (n b : Nat) (h0 : n ≠ 0) (hn : n - 1 < 2 ^ b) :
    ∃ s, n - 1 ≤ s ∧ s < 2 ^ b ∧ next_power_of_2 wide n = size_wrap (s + 1) := by
  obtain ⟨a1, b1⟩ := or_shift_bounds (n - 1) 1 b hn
  obtain ⟨a2, b2⟩ := or_shift_bounds _ 2 b b1
  obtain ⟨a3, b3⟩ := or_shift_bounds _ 4 b b2
  obtain ⟨a4, b4⟩ := or_shift_bounds _ 8 b b3
  obtain ⟨a5, b5⟩ := or_shift_bounds _ 16 b b4
  obtain ⟨a6, b6⟩ := or_shift_bounds _ 32 b b5
  simp only [next_power_of_2, h0, if_false]
  cases wide with
  | true =>
    simp only [if_true]
    exact ⟨_, by omega, b6, rfl⟩
  | false =>
    simp only [Bool.false_eq_true, if_false]
    exact ⟨_, by omega, b5, rfl⟩

/-- With or without line 17, `next_power_of_2` returns a `size_t` that is either zero (the
final increment wrapped) or at least its argument. -/
theorem next_power_of_2_ge (wide : Bool) (n : Nat) (hn : n < 2 ^ 64) :
    next_power_of_2 wide n < 2 ^ 64 ∧
      (next_power_of_2 wide n = 0 ∨ n ≤ next_power_of_2 wide n) := by
  by_cases h0 : n = 0
  · subst h0
    simp [next_power_of_2]
  · obtain ⟨s, s1, s2, e⟩ := next_power_of_2_bounds wide n 64 h0 (by omega)
    rw [e, size_wrap]
    refine ⟨Nat.mod_lt _ (by norm_num), ?_⟩
    omega

/-- With or without line 17, `next_power_of_2` of an argument up to `2 ^ 63` does not wrap:
the result is at least the argument. -/
theorem next_power_of_2_ge_of_le (wide : Bool) (n : Nat) (hn : n ≤ 2 ^ 63) :
    n ≤ next_power_of_2 wide n ∧ next_power_of_2 wide n ≤ 2 ^ 63 := by
  by_cases h0 : n = 0
  · subst h0
    simp [next_power_of_2]
  · obtain ⟨s, s1, s2, e⟩ := next_power_of_2_bounds wide n 63 h0 (by omega)
    rw [e, size_wrap]
    omega

theorem log2_size_loop_pow (fuel k r : Nat) (hk : k ≤ fuel) :
    log2_size_loop fuel (2 ^ k) r = r + k := by
  induction fuel generalizing k r with
  | zero =>
    have : k = 0 := by omega
    subst this; simp [log2_size_loop]
  | succ f ih =>
    cases k with
    | zero => simp [log2_size_loop]
    | succ k =>
      have h1 : (2 : Nat) ^ (k + 1) > 1 := Nat.one_lt_two_pow (by omega)
      have h2 : (2 : Nat) ^ (k + 1) >>> 1 = 2 ^ k := by
        rw [Nat.shiftRight_eq_div_pow, pow_succ]; simp
      simp only [log2_size_loop, h1, if_true, h2]
      rw [ih k (r + 1) (by omega)]
      omega

theorem log2_size_pow (k : Nat) (hk : k ≤ 64) : log2_size (2 ^ k) = k := by
  simp [log2_size, log2_size_loop_pow 64 k 0 hk]

theorem log2_size_loop_ge (fuel : Nat) :
    ∀ (n r k : Nat), k ≤ fuel → 2 ^ k ≤ n → r + k ≤ log2_size_loop fuel n r := by
  induction fuel with
  | zero =>
    intro n r k hk _
    simp only [log2_size_loop]
    omega
  | succ f ih =>
    intro n r k hk h
    rw [log2_size_loop]
    cases k with
    | zero =>
      by_cases h1 : n > 1
      · rw [if_pos h1]
        have := ih (n >>> 1) (r + 1) 0 (by omega)
          (by rw [Nat.shiftRight_eq_div_pow]; simp; omega)
        omega
      · rw [if_neg h1]; omega
    | succ k =>
      have h2 : (2 : Nat) ^ (k + 1) = 2 ^ k * 2 := pow_succ 2 k
      have hk1 : 1 ≤ 2 ^ k := Nat.one_le_two_pow
      have h1 : n > 1 := by omega
      rw [if_pos h1]
      have := ih (n >>> 1) (r + 1) k (by omega)
        (by rw [Nat.shiftRight_eq_div_pow]; simp; omega)
      omega

theorem log2_size_loop_le (fuel : Nat) :
    ∀ (n r k : Nat), n < 2 ^ (k + 1) → log2_size_loop fuel n r ≤ r + k := by
  induction fuel with
  | zero =>
    intro n r k _
    simp only [log2_size_loop]
    omega
  | succ f ih =>
    intro n r k h
    rw [log2_size_loop]
    by_cases h1 : n > 1
    · rw [if_pos h1]
      cases k with
      | zero => simp at h; omega
      | succ k =>
        have h2 : (2 : Nat) ^ (k + 1 + 1) = 2 ^ (k + 1) * 2 := pow_succ 2 (k + 1)
        have := ih (n >>> 1) (r + 1) k
          (by rw [Nat.shiftRight_eq_div_pow]; simp; omega)
        omega
    · rw [if_neg h1]; omega

/-- Function `log2_size` returns the position of the top bit of a non-zero `size_t`. -/
theorem log2_size_spec (n : Nat) (h0 : 0 < n) (hn : n < 2 ^ 64) :
    log2_size n ≤ 63 ∧ 2 ^ log2_size n ≤ n ∧ n < 2 ^ (log2_size n + 1) := by
  have hs4 : 0 < n.size := Nat.size_pos.mpr h0
  have hs1 : 2 ^ (n.size - 1) ≤ n := Nat.lt_size.mp (by omega)
  have hs2 : n < 2 ^ n.size := Nat.lt_size_self n
  have hs3 : n.size ≤ 64 := Nat.size_le.mpr hn
  have e2 : n.size - 1 + 1 = n.size := by omega
  have hge := log2_size_loop_ge 64 n 0 (n.size - 1) (by omega) hs1
  have hle := log2_size_loop_le 64 n 0 (n.size - 1) (by rw [e2]; exact hs2)
  have e : log2_size n = n.size - 1 := by
    unfold log2_size
    omega
  rw [e, e2]
  exact ⟨by omega, hs1, hs2⟩

theorem int_shl1_some (k v : Nat) (h : int_shl1 k = some v) : k ≤ 30 ∧ v = 2 ^ k := by
  unfold int_shl1 at h
  by_cases hk : k < 31
  · simp [hk] at h
    exact ⟨by omega, h.symm⟩
  · simp [hk] at h

theorem int_shl1_of_le (k : Nat) (h : k ≤ 30) : int_shl1 k = some (2 ^ k) := by
  unfold int_shl1
  simp [show k < 31 by omega]

/-! ## Loads after stores -/

theorem load_byte_store_byte_same (mem : Nat → Nat) (a v : Nat) :
    load_byte (store_byte mem a v) a = v % 256 := by
  simp [load_byte, store_byte]

theorem load_byte_store_byte_apart (mem : Nat → Nat) (a v b : Nat) (h : b ≠ a) :
    load_byte (store_byte mem a v) b = load_byte mem b := by
  simp [load_byte, store_byte, h]

theorem load_byte_store_word_apart (mem : Nat → Nat) (a v b : Nat) (h : b < a ∨ a + 8 ≤ b) :
    load_byte (store_word mem a v) b = load_byte mem b := by
  have h1 : ¬(a ≤ b ∧ b < a + 8) := by omega
  simp [load_byte, store_word, h1]

theorem load_byte_store_word_inside (mem : Nat → Nat) (a v i : Nat) (h : i < 8) :
    load_byte (store_word mem a v) (a + i) = v / 256 ^ i % 256 := by
  have h1 : a ≤ a + i ∧ a + i < a + 8 := by omega
  simp [load_byte, store_word, h1]

theorem load_word_store_word_same (mem : Nat → Nat) (a v : Nat) (hv : v < 2 ^ 64) :
    load_word (store_word mem a v) a = v := by
  have h0 := load_byte_store_word_inside mem a v 0 (by omega)
  rw [Nat.add_zero] at h0
  unfold load_word
  rw [h0, load_byte_store_word_inside mem a v 1 (by omega),
    load_byte_store_word_inside mem a v 2 (by omega),
    load_byte_store_word_inside mem a v 3 (by omega),
    load_byte_store_word_inside mem a v 4 (by omega),
    load_byte_store_word_inside mem a v 5 (by omega),
    load_byte_store_word_inside mem a v 6 (by omega),
    load_byte_store_word_inside mem a v 7 (by omega)]
  norm_num at hv ⊢
  omega

theorem load_word_store_word_apart (mem : Nat → Nat) (a v b : Nat)
    (h : a + 8 ≤ b ∨ b + 8 ≤ a) :
    load_word (store_word mem a v) b = load_word mem b := by
  unfold load_word
  rw [load_byte_store_word_apart mem a v b (by omega),
    load_byte_store_word_apart mem a v (b + 1) (by omega),
    load_byte_store_word_apart mem a v (b + 2) (by omega),
    load_byte_store_word_apart mem a v (b + 3) (by omega),
    load_byte_store_word_apart mem a v (b + 4) (by omega),
    load_byte_store_word_apart mem a v (b + 5) (by omega),
    load_byte_store_word_apart mem a v (b + 6) (by omega),
    load_byte_store_word_apart mem a v (b + 7) (by omega)]

theorem load_word_store_byte_apart (mem : Nat → Nat) (a v b : Nat) (h : a < b ∨ b + 8 ≤ a) :
    load_word (store_byte mem a v) b = load_word mem b := by
  unfold load_word
  rw [load_byte_store_byte_apart mem a v b (by omega),
    load_byte_store_byte_apart mem a v (b + 1) (by omega),
    load_byte_store_byte_apart mem a v (b + 2) (by omega),
    load_byte_store_byte_apart mem a v (b + 3) (by omega),
    load_byte_store_byte_apart mem a v (b + 4) (by omega),
    load_byte_store_byte_apart mem a v (b + 5) (by omega),
    load_byte_store_byte_apart mem a v (b + 6) (by omega),
    load_byte_store_byte_apart mem a v (b + 7) (by omega)]

/-! ## Out-of-range pointers -/

/-- C10 (out-of-range pointers): for every buddy state and every address below
`memory_pool + sizeof(BuddyBlock)` or at or above `memory_pool + total_size`, `p2_free` returns
the state unchanged, whatever `size` is passed. -/
theorem buddy_free_out_of_range (hdr : Nat) (p2 : PowerOf2Allocator) (ptr size : Nat)
    (h : ptr < p2.memory_pool + hdr ∨ ptr ≥ p2.memory_pool + p2.total_size) :
    p2_free hdr p2 ptr size = .done p2 := by
  unfold p2_free
  by_cases h0 : ptr = 0
  · simp [h0]
  · simp [h0, h]

/-- Witness for C10: the address one past the end of the demo pool. -/
theorem buddy_free_out_of_range_witness :
    (5120 < demo_pool.memory_pool + 24 ∨ 5120 ≥ demo_pool.memory_pool + demo_pool.total_size) ∧
      p2_free 24 demo_pool 5120 7 = .done demo_pool :=
  ⟨Or.inr (by decide), buddy_free_out_of_range 24 demo_pool 5120 7 (Or.inr (by decide))⟩

/-! ## Pool creation and the width of `1 << k` -/

/-- Buddy pool creation where the rounding is exact and the first header fits: for a request
of at most `2 ^ 63` bytes (`2 ^ 32` where line 17 of `next_power_of_2` is not compiled), with
`k` the least exponent such that `2 ^ k` is at least the request, and a header of at most
`2 ^ k` bytes, `create_power_of_2_allocator` runs to completion and returns the allocator with
`total_size = 2 ^ k`, `max_order = k`, `used_size = 0`, the head of list `k` pointing to the
start of the pool, every other list head null, and the header at the start of the pool
written with order `k`, `is_free` set and a null link. -/
theorem buddy_create_post (wide : Bool) (hdr pool : Nat) (mem : Nat → Nat)
    (total_size k : Nat) (hpool : pool ≠ 0) (hT : total_size ≤ 2 ^ 63)
    (hw : wide = true ∨ total_size ≤ 2 ^ 32) (hk : total_size ≤ 2 ^ k)
    (hmin : ∀ j, total_size ≤ 2 ^ j → k ≤ j) (hfit : hdr ≤ 2 ^ k) :
    create_power_of_2_allocator wide hdr pool mem total_size =
      .done (some
        { free_lists := Function.update (fun _ => 0) k pool
          mem := store_word (store_byte (store_word mem pool k) (pool + 8) 1) (pool + 16) 0
          memory_pool := pool
          total_size := 2 ^ k
          used_size := 0
          max_order := k }) := by
  obtain ⟨m, hm, e, hle, hm2⟩ := next_power_of_2_spec total_size hT hw
  have hkm : m = k := le_antisymm (hm2 k hk) (hmin m hle)
  subst hkm
  unfold create_power_of_2_allocator
  have h2 : ¬(2 ^ m < hdr) := by omega
  simp only [hpool, if_false, e, h2, log2_size_pow m (by omega)]

/-- A request of 1000 bytes on either build gives the pool of 1024 bytes and order 10. -/
theorem buddy_create_post_witness :
    create_power_of_2_allocator false 24 4096 demo_mem 1000 = .done (some demo_pool) ∧
      create_power_of_2_allocator true 24 4096 demo_mem 1000 = .done (some demo_pool) :=
  have hmin : ∀ j, 1000 ≤ 2 ^ j → 10 ≤ j := by
    intro j hj
    by_contra hc
    have : (2 : Nat) ^ j ≤ 2 ^ 9 := Nat.pow_le_pow_right (by omega) (by omega)
    omega
  ⟨buddy_create_post false 24 4096 demo_mem 1000 10 (by decide) (by norm_num)
      (Or.inr (by norm_num)) (by norm_num) hmin (by norm_num),
    buddy_create_post true 24 4096 demo_mem 1000 10 (by decide) (by norm_num)
      (Or.inl rfl) (by norm_num) hmin (by norm_num)⟩

/-- C18 (failing inputs): requests for which `create_power_of_2_allocator` does not set
`total_size` to the least power of two at or above the request.  Where line 17 of
`next_power_of_2` is not compiled, a request of `2 ^ 33 + 1` bytes gives
`total_size = 2 ^ 34 - 3`, which is no power of two, and `max_order = 33`, so that
`2 ^ max_order` differs from `total_size`.  Where line 17 is compiled, a request of
`2 ^ 63 + 1` bytes rounds to `2 ^ 64`, which wraps to 0: the pool has no room for the first
header.  On either build a request of 0 bytes rounds to 1 byte, and the 24-byte header of
the initial block is written past the end of that pool. -/
theorem buddy_create_not_rounded :
    (∃ p2, create_power_of_2_allocator false 24 4096 demo_mem (2 ^ 33 + 1) = .done (some p2) ∧
      p2.total_size = 2 ^ 34 - 3 ∧ (¬ ∃ k, p2.total_size = 2 ^ k) ∧
      p2.max_order = 33 ∧ 2 ^ p2.max_order ≠ p2.total_size) ∧
    (next_power_of_2 true (2 ^ 63 + 1) = 0 ∧
      create_power_of_2_allocator true 24 4096 demo_mem (2 ^ 63 + 1) = .undefined) ∧
    (next_power_of_2 false 0 = 1 ∧ next_power_of_2 true 0 = 1 ∧
      create_power_of_2_allocator false 24 4096 demo_mem 0 = .undefined ∧
      create_power_of_2_allocator true 24 4096 demo_mem 0 = .undefined) := by
  refine ⟨⟨_, rfl, by decide, ?_, by decide, by decide⟩, ⟨by decide, rfl⟩,
    ⟨by decide, by decide, rfl, rfl⟩⟩
  rintro ⟨k, hk⟩
  have e : (next_power_of_2 false (2 ^ 33 + 1)) = 2 ^ 34 - 3 := by decide
  change next_power_of_2 false (2 ^ 33 + 1) = 2 ^ k at hk
  rw [e] at hk
  by_cases h : k ≤ 33
  · have : (2 : Nat) ^ k ≤ 2 ^ 33 := Nat.pow_le_pow_right (by omega) h
    omega
  · have : (2 : Nat) ^ 34 ≤ 2 ^ k := Nat.pow_le_pow_right (by omega) (by omega)
    omega

/-- C1 (failing input): where line 17 of `next_power_of_2` is not compiled, creating a pool
of `2 ^ 33 + 1` bytes sets `total_size = 2 ^ 34 - 3`, which is no power of two, and
`max_order = 33`; the fresh state holds one free block of order 33 and nothing is in use, so
`used_size` plus the bytes on the free lists is `2 ^ 33`, not `total_size`. -/
theorem buddy_conservation_unrounded_pool :
    next_power_of_2 false (2 ^ 33 + 1) = 2 ^ 34 - 3 ∧
    ∃ p2, create_power_of_2_allocator false 24 4096 demo_mem (2 ^ 33 + 1) = .done (some p2) ∧
      p2.total_size = 2 ^ 34 - 3 ∧ p2.max_order = 33 ∧ p2_free_list p2 33 = [4096] ∧
      p2.used_size = 0 ∧ free_bytes p2 (p2.max_order + 1) = 2 ^ 33 ∧
      p2.used_size + free_bytes p2 (p2.max_order + 1) ≠ p2.total_size :=
  ⟨by decide, _, rfl, by decide, by decide, by decide, rfl, by decide, by decide⟩

/-- C20 (failing inputs): calls that evaluate `1 << k` with `k = 31`, where the result
`2 ^ 31` does not fit the `int` in which C computes it.  On a pool of `2 ^ 31` bytes
(`max_order = 31`) a request of `2 ^ 31 - 24` bytes has order 31, the whole pool is handed
out and `used_size += (1 << 31)` is evaluated.  On a pool of `2 ^ 32` bytes
(`max_order = 32`) a request of 10 bytes splits the block of order 32, and the first split
computes `buddy_size = 1 << 31`.  For `k ≤ 30` the expression has the value `2 ^ k`. -/
theorem block_size_shift_overflows :
    int_shl1 31 = none ∧ (∀ k, k ≤ 30 → int_shl1 k = some (2 ^ k)) ∧
    (∃ p2, create_power_of_2_allocator false 24 4096 demo_mem (2 ^ 31) = .done (some p2) ∧
      create_power_of_2_allocator true 24 4096 demo_mem (2 ^ 31) = .done (some p2) ∧
      p2.total_size = 2 ^ 31 ∧ p2.max_order = 31 ∧
      p2_order false 24 (2 ^ 31 - 24) = 31 ∧ p2_order true 24 (2 ^ 31 - 24) = 31 ∧
      p2_allocate false 24 p2 (2 ^ 31 - 24) = .undefined ∧
      p2_allocate true 24 p2 (2 ^ 31 - 24) = .undefined) ∧
    (∃ p2, create_power_of_2_allocator false 24 4096 demo_mem (2 ^ 32) = .done (some p2) ∧
      create_power_of_2_allocator true 24 4096 demo_mem (2 ^ 32) = .done (some p2) ∧
      p2.total_size = 2 ^ 32 ∧ p2.max_order = 32 ∧
      p2_order false 24 10 = 6 ∧
      p2_allocate false 24 p2 10 = .undefined ∧
      p2_allocate true 24 p2 10 = .undefined) :=
  ⟨by decide, fun k hk => int_shl1_of_le k hk,
    ⟨_, rfl, rfl, by decide, by decide, by decide, by decide, rfl, rfl⟩,
    ⟨_, rfl, rfl, by decide, by decide, by decide, rfl, rfl⟩⟩

/-! ## Requests whose size wraps -/

/-- C8 (failing input): on the fresh 1024-byte demo pool (`max_order = 10`) with a 24-byte
header, a request of `SIZE_MAX = 2 ^ 64 - 1` bytes needs an order above `max_order`: every
`k` with `2 ^ k ≥ size + header` exceeds 10.  The order `p2_allocate` computes from the
wrapped sum is 5, and the call returns the non-null address 4120 instead of null. -/
theorem buddy_allocate_wrapped_not_null :
    (∀ k, 2 ^ 64 - 1 + 24 ≤ 2 ^ k → demo_pool.max_order < k) ∧
      p2_order false 24 (2 ^ 64 - 1) = 5 ∧ p2_order true 24 (2 ^ 64 - 1) = 5 ∧
      (∃ q, p2_allocate false 24 demo_pool (2 ^ 64 - 1) = .done (q, 4120)) ∧
      (∃ q, p2_allocate true 24 demo_pool (2 ^ 64 - 1) = .done (q, 4120)) ∧
      ¬ ∃ q, p2_allocate false 24 demo_pool (2 ^ 64 - 1) = .done (q, 0) := by
  refine ⟨?_, by decide, by decide, ⟨_, rfl⟩, ⟨_, rfl⟩, ?_⟩
  · intro k hk
    by_contra hc
    have h1 : (2 : Nat) ^ k ≤ 2 ^ 10 := Nat.pow_le_pow_right (by omega) (by
      have : demo_pool.max_order = 10 := rfl
      omega)
    have h2 : (2 : Nat) ^ 10 < 2 ^ 64 - 1 + 24 := by norm_num
    omega
  · rintro ⟨q, hq⟩
    have e : p2_allocate false 24 demo_pool (2 ^ 64 - 1) =
        .done ((_ : PowerOf2Allocator), 4120) := rfl
    rw [e] at hq
    simp at hq

/-- C9 (failing input): on the fresh 1024-byte demo pool with a 24-byte header, a request of
`SIZE_MAX = 2 ^ 64 - 1` bytes succeeds, with or without line 17 of `next_power_of_2`:
`size + sizeof(BuddyBlock)` wraps to 23, the computed order is 5 and the block handed out is
32 bytes long, far shorter than the request. -/
theorem buddy_allocate_size_wraps :
    size_wrap (2 ^ 64 - 1 + 24) = 23 ∧
      p2_order false 24 (2 ^ 64 - 1) = 5 ∧ p2_order true 24 (2 ^ 64 - 1) = 5 ∧
      2 ^ 5 < 2 ^ 64 - 1 + 24 ∧
      (∃ q, p2_allocate false 24 demo_pool (2 ^ 64 - 1) = .done (q, 4120) ∧
        block_order q.mem 4096 = 5 ∧ block_is_free q.mem 4096 = some false ∧
        q.used_size = 32 ∧
        demo_pool.memory_pool + 0 + 2 ^ 5 < 4120 + (2 ^ 64 - 1)) ∧
      (∃ q, p2_allocate true 24 demo_pool (2 ^ 64 - 1) = .done (q, 4120) ∧
        block_order q.mem 4096 = 5 ∧ block_is_free q.mem 4096 = some false ∧
        q.used_size = 32 ∧
        demo_pool.memory_pool + 0 + 2 ^ 5 < 4120 + (2 ^ 64 - 1)) :=
  ⟨by decide, by decide, by decide, by decide, ⟨_, rfl, by decide, by decide, by decide, by decide⟩,
    ⟨_, rfl, by decide, by decide, by decide, by decide⟩⟩

/-- C3 (failing input): requests of twice the requested pool size that the buddy engine does
not answer with null.  Where line 17 of `next_power_of_2` is compiled: on a pool of `2 ^ 62`
bytes the sum `2 ^ 63 + 24` rounds to `2 ^ 64`, which wraps to 0, and the computed order is 0.
Where it is not compiled: on a pool requested with `2 ^ 36 + 2 ^ 35 - 7` bytes (rounded to
`2 ^ 37`) the sum rounds to `2 ^ 38 - 16` and the computed order is 37, the order of the pool.
In both cases the two null-returning tests of `p2_allocate` are passed, and the call goes on
to take a block and to shift `1` by 31 or more. -/
theorem over_allocation_not_null :
    (∃ p2, create_allocator true 24 4096 demo_words demo_mem .POWER_OF_2 (2 ^ 62) =
        .done (some (.power_of_2 p2)) ∧
      p2.max_order = 62 ∧ next_power_of_2 true (size_wrap (2 * 2 ^ 62 + 24)) = 0 ∧
      p2_order true 24 (2 * 2 ^ 62) = 0 ∧
      find_order p2 (p2.max_order + 1 - 0) 0 = 62 ∧
      allocate_memory true 24 (some (.power_of_2 p2)) (2 * 2 ^ 62) = .undefined) ∧
    (∃ p2, create_allocator false 24 4096 demo_words demo_mem .POWER_OF_2
          (2 ^ 36 + 2 ^ 35 - 7) = .done (some (.power_of_2 p2)) ∧
      p2.total_size = 2 ^ 37 ∧ p2.max_order = 37 ∧
      next_power_of_2 false (size_wrap (2 * (2 ^ 36 + 2 ^ 35 - 7) + 24)) = 2 ^ 38 - 16 ∧
      p2_order false 24 (2 * (2 ^ 36 + 2 ^ 35 - 7)) = 37 ∧
      find_order p2 (p2.max_order + 1 - 37) 37 = 37 ∧
      allocate_memory false 24 (some (.power_of_2 p2)) (2 * (2 ^ 36 + 2 ^ 35 - 7)) =
        .undefined) :=
  ⟨⟨_, rfl, rfl, by decide, by decide, by decide, rfl⟩,
    ⟨_, rfl, by decide, by decide, by decide, by decide, by decide, rfl⟩⟩

/-! ## Allocation and release of a request that does not wrap -/

/-- A request that does not wrap, for comparison: on the fresh 1024-byte pool
`p2_allocate(10)` returns the address 4120 with order 6, and `p2_free` of that address merges
the block with its buddies of the orders 6 to 9, each taken off its list, so that list 10
holds the block at offset 0 again, every other list is empty and `used_size` is 0. -/
theorem buddy_round_trip_small_request (wide : Bool) :
    ∃ q r, p2_allocate wide 24 demo_pool 10 = .done (q, 4120) ∧
      p2_free 24 q 4120 10 = .done r ∧
      r.used_size = 0 ∧ p2_free_list r 10 = [4096] ∧
      block_order r.mem 4096 = 10 ∧ block_is_free r.mem 4096 = some true ∧
      p2_free_list r 6 = [] ∧ p2_free_list r 7 = [] ∧ p2_free_list r 8 = [] ∧
      p2_free_list r 9 = [] ∧ ∀ k, k < 6 → r.free_lists k = 0 := by
  cases wide <;>
  exact ⟨_, _, rfl, rfl, by decide, by decide, by decide, by decide, by decide, by decide,
    by decide, by decide, by decide⟩

/-! ## Blocks shorter than a header

A request of `2 ^ 64 - 24` to `2 ^ 64 - 8` bytes makes `size + sizeof(BuddyBlock)` wrap to a
sum of at most 16, and the order computed from it is at most 4.  `p2_allocate` then splits
down to blocks of 16 bytes or less, whose 24-byte headers reach into the next block.  The
theorems of this section run the code on the fresh 1024-byte pool at address 4096. -/

theorem block_range_overlap (hdr : Nat) (p2 : PowerOf2Allocator) (ptr b c e : Nat)
    (hab : (p2_block_range hdr p2 ptr).1 ≤ b) (he : e ≤ block_order p2.mem (ptr - hdr))
    (hb : b < (p2_block_range hdr p2 ptr).1 + 2 ^ e) (hbc : b < c) :
    ¬ ranges_disjoint (p2_block_range hdr p2 ptr) (b, c) := by
  have h2 : (p2_block_range hdr p2 ptr).2 =
      (p2_block_range hdr p2 ptr).1 + 2 ^ block_order p2.mem (ptr - hdr) := rfl
  have hp : 2 ^ e ≤ 2 ^ block_order p2.mem (ptr - hdr) := Nat.pow_le_pow_right (by omega) he
  unfold ranges_disjoint
  rw [h2]
  show ¬(_ ≤ b ∨ c ≤ _)
  omega

/-- C19 (failing input): on the fresh 1024-byte pool, after `p2_allocate(2 ^ 64 - 8)` has
returned the address 4120, free list 5 holds the block at offset 32 and free list 4 holds the
block at offset 16, but the `order` member of the block at offset 32 is 0 and that of the
block at offset 16 is 4112: the `next` link of the 16-byte block before it has been stored
over it. -/
theorem buddy_free_list_order_overwritten (wide : Bool) :
    ∃ q, create_power_of_2_allocator wide 24 4096 demo_mem 1024 = .done (some demo_pool) ∧
      p2_order wide 24 (2 ^ 64 - 8) = 4 ∧
      p2_allocate wide 24 demo_pool (2 ^ 64 - 8) = .done (q, 4120) ∧
      p2_free_list q 5 = [4128] ∧ block_order q.mem 4128 = 0 ∧
      block_next q.mem 4112 = 0 ∧
      p2_free_list q 4 = [4112] ∧ block_order q.mem 4112 = 4112 ∧
      block_next q.mem 4096 = 4112 := by
  cases wide <;>
  exact ⟨_, rfl, by decide, rfl, by decide, by decide, by decide, by decide, by decide,
    by decide⟩

/-- C2 (failing input): on the fresh 1024-byte pool `p2_allocate(2 ^ 64 - 8)` succeeds with
order 4 and returns the address 4120; `p2_free` of that address completes and leaves
`used_size = 0`, but the free list of `max_order = 10` is empty and the lists of the orders
4 to 9 hold blocks: the buddy at offset 16 is not merged, because its `order` member reads
4112. -/
theorem buddy_round_trip_wrapped_size (wide : Bool) :
    ∃ q r, create_power_of_2_allocator wide 24 4096 demo_mem 1024 = .done (some demo_pool) ∧
      p2_order wide 24 (2 ^ 64 - 8) = 4 ∧
      p2_allocate wide 24 demo_pool (2 ^ 64 - 8) = .done (q, 4120) ∧
      p2_free 24 q 4120 (2 ^ 64 - 8) = .done r ∧
      r.used_size = 0 ∧ r.max_order = 10 ∧ p2_free_list r 10 = [] ∧
      p2_free_list r 4 = [4096, 4112] ∧ p2_free_list r 5 = [4128] ∧
      p2_free_list r 6 = [4160] ∧ p2_free_list r 7 = [4224] ∧ p2_free_list r 8 = [4352] ∧
      p2_free_list r 9 = [4608] := by
  cases wide <;>
  exact ⟨_, _, rfl, by decide, rfl, rfl, by decide, by decide, by decide, by decide,
    by decide, by decide, by decide, by decide, by decide⟩

/-- C21 (failing input): on the fresh 1024-byte pool, `p2_allocate(2 ^ 64 - 8)` immediately
followed by `p2_free` of the returned address restores `used_size` but not the free lists:
list 10 held the block at offset 0 before and is empty afterwards, list 4, empty before,
holds the blocks at offsets 0 and 16, which are free buddies of order 4, and the lists 5
to 9 hold one block each. -/
theorem buddy_round_trip_not_restored (wide : Bool) :
    ∃ q r, p2_allocate wide 24 demo_pool (2 ^ 64 - 8) = .done (q, 4120) ∧
      p2_free 24 q 4120 (2 ^ 64 - 8) = .done r ∧
      r.used_size = demo_pool.used_size ∧
      p2_free_list demo_pool 10 = [4096] ∧ p2_free_list r 10 = [] ∧
      p2_free_list demo_pool 4 = [] ∧ p2_free_list r 4 = [4096, 4112] ∧
      block_is_free r.mem 4096 = some true ∧ block_is_free r.mem 4112 = some true ∧
      4112 - r.memory_pool = (4096 - r.memory_pool) ^^^ 2 ^ 4 ∧ 4 < r.max_order ∧
      p2_free_list r 5 = [4128] ∧ p2_free_list r 6 = [4160] ∧ p2_free_list r 7 = [4224] ∧
      p2_free_list r 8 = [4352] ∧ p2_free_list r 9 = [4608] := by
  cases wide <;>
  exact ⟨_, _, rfl, rfl, by decide, by decide, by decide, by decide, by decide, by decide,
    by decide, by decide, by decide, by decide, by decide, by decide, by decide, by decide⟩

/-- C22 (failing input): the two phases of the benchmark on the fresh 1024-byte pool with the
single request `2 ^ 64 - 8`: the allocation phase returns the address 4120, the release
phase frees it, and the pool is left with `used_size = 0` but with an empty list 10 and
the blocks at offsets 0 and 16 on list 4, not with the block of order 10 it started with. -/
theorem buddy_release_not_restored (wide : Bool) :
    ∃ q r, allocation_phase wide 24 demo_pool [2 ^ 64 - 8] = .done (q, [4120]) ∧
      release_phase 24 q [(4120, 2 ^ 64 - 8)] = .done r ∧
      r.used_size = 0 ∧ r.max_order = 10 ∧
      p2_free_list demo_pool 10 = [4096] ∧ p2_free_list r 10 = [] ∧
      p2_free_list r 4 = [4096, 4112] ∧ p2_free_list r 5 = [4128] ∧
      p2_free_list r 6 = [4160] ∧ p2_free_list r 7 = [4224] ∧ p2_free_list r 8 = [4352] ∧
      p2_free_list r 9 = [4608] := by
  cases wide <;>
  exact ⟨_, _, rfl, rfl, by decide, by decide, by decide, by decide, by decide, by decide,
    by decide, by decide, by decide, by decide⟩

/-- C5 (failing input): on the fresh 1024-byte pool two calls `p2_allocate(2 ^ 64 - 8)` return
the addresses 4120 and 4136.  The block of the second address, at offset 16, is allocated,
and its `order` member reads 4112, the link stored over it.  The first `p2_free` of 4136
evaluates `1 << 4112`, so the two calls of the claim have no defined result. -/
theorem buddy_double_free_undefined (wide : Bool) :
    ∃ q1 q2, p2_allocate wide 24 demo_pool (2 ^ 64 - 8) = .done (q1, 4120) ∧
      p2_allocate wide 24 q1 (2 ^ 64 - 8) = .done (q2, 4136) ∧
      block_is_free q2.mem (4136 - 24) = some false ∧
      block_order q2.mem (4136 - 24) = 4112 ∧ int_shl1 4112 = none ∧
      ∀ size, p2_free 24 q2 4136 size = .undefined := by
  cases wide <;>
  exact ⟨_, _, rfl, rfl, by decide, by decide, by decide, fun _ => rfl⟩

/-- C4 (failing input): on the fresh 1024-byte pool two calls `p2_allocate(2 ^ 64 - 8)` hand
out the blocks at offsets 0 and 16, buddies of order 4, both allocated.  Freeing the first
and then the second completes, with `used_size = 15`, the block at offset 16 on list 0 and
the block at offset 0 on list 4.  Freeing the second first evaluates `1 << 4112`. -/
theorem buddy_free_order_dependent (wide : Bool) :
    ∃ q1 q2 ra rab,
      p2_allocate wide 24 demo_pool (2 ^ 64 - 8) = .done (q1, 4120) ∧
      p2_allocate wide 24 q1 (2 ^ 64 - 8) = .done (q2, 4136) ∧
      q2.used_size = 32 ∧
      block_is_free q2.mem 4096 = some false ∧ block_is_free q2.mem 4112 = some false ∧
      4112 - q2.memory_pool = (4096 - q2.memory_pool) ^^^ 2 ^ 4 ∧
      p2_free 24 q2 4120 (2 ^ 64 - 8) = .done ra ∧
      p2_free 24 ra 4136 (2 ^ 64 - 8) = .done rab ∧
      rab.used_size = 15 ∧ p2_free_list rab 0 = [4112] ∧ p2_free_list rab 4 = [4096] ∧
      p2_free 24 q2 4136 (2 ^ 64 - 8) = .undefined := by
  cases wide <;>
  exact ⟨_, _, _, _, rfl, rfl, by decide, by decide, by decide, by decide, rfl, rfl,
    by decide, by decide, by decide, rfl⟩

/-- C23 (failing input, buddy engine): on the fresh 1024-byte pool two calls
`p2_allocate(2 ^ 64 - 8)` return the addresses 4120 and 4136.  After the first call the
returned address 4120 lies inside the free block of list 4, which occupies the addresses
4112 to 4128.  After the second call both blocks are allocated.  The first occupies the
offsets 0 to 16.  The `order` member of the second reads 4112, so its range starts at
offset 16 and extends over `2 ^ 4112` bytes, across the free block at offset 32 of list 5.
The address 4120 handed to the client for the first block lies inside the header of the
second, which occupies the addresses 4112 to 4136. -/
theorem buddy_live_blocks_overlap (wide : Bool) :
    ∃ q1 q2, p2_allocate wide 24 demo_pool (2 ^ 64 - 8) = .done (q1, 4120) ∧
      p2_free_list q1 4 = [4112] ∧ 4112 ≤ 4120 ∧ 4120 < 4112 + 2 ^ 4 ∧
      p2_allocate wide 24 q1 (2 ^ 64 - 8) = .done (q2, 4136) ∧
      block_is_free q2.mem (4120 - 24) = some false ∧
      block_is_free q2.mem (4136 - 24) = some false ∧
      p2_block_range 24 q2 4120 = (0, 16) ∧
      (p2_block_range 24 q2 4136).1 = 16 ∧ block_order q2.mem (4136 - 24) = 4112 ∧
      p2_free_list q2 5 = [4128] ∧
      ¬ ranges_disjoint (p2_block_range 24 q2 4136)
        (4128 - q2.memory_pool, 4128 - q2.memory_pool + 2 ^ 5) ∧
      4136 - 24 ≤ 4120 ∧ 4120 < 4136 - 24 + 24 := by
  cases wide
  · exact ⟨_, _, rfl, by decide, by decide, by decide, rfl, by decide, by decide, by decide,
      by decide, by decide, by decide,
      block_range_overlap 24 _ 4136 _ _ 5 (by decide) (by decide) (by decide) (by decide),
      by decide, by decide⟩
  · exact ⟨_, _, rfl, by decide, by decide, by decide, rfl, by decide, by decide, by decide,
      by decide, by decide, by decide,
      block_range_overlap 24 _ 4136 _ _ 5 (by decide) (by decide) (by decide) (by decide),
      by decide, by decide⟩

/-! ## The exact scenario -/

theorem create_1024 (wide : Bool) (pool : Nat) (mem : Nat → Nat) (p2 : PowerOf2Allocator)
    (h : create_power_of_2_allocator wide 24 pool mem 1024 = .done (some p2)) :
    pool ≠ 0 ∧
    p2 = { free_lists := Function.update (fun _ => 0) 10 pool
           mem := store_word (store_byte (store_word mem pool 10) (pool + 8) 1) (pool + 16) 0
           memory_pool := pool
           total_size := 1024
           used_size := 0
           max_order := 10 } := by
  have e1 : next_power_of_2 wide 1024 = 1024 := by cases wide <;> decide
  have e2 : log2_size 1024 = 10 := by decide
  unfold create_power_of_2_allocator at h
  simp only [e1, e2] at h
  by_cases hp : pool = 0
  · simp [hp] at h
  · simp only [hp, if_false, show ¬(1024 < 24) by decide, Outcome.done.injEq,
      Option.some.injEq] at h
    exact ⟨hp, h.symm⟩

theorem p2_free_list_nil (p2 : PowerOf2Allocator) (k : Nat) (h : p2.free_lists k = 0) :
    p2_free_list p2 k = [] := by
  unfold p2_free_list
  rw [h, buddy_chain]
  simp

theorem p2_free_list_single (p2 : PowerOf2Allocator) (k b : Nat) (h : p2.free_lists k = b)
    (hb : b ≠ 0) (hn : block_next p2.mem b = 0) (ht : 1 ≤ p2.total_size) :
    p2_free_list p2 k = [b] := by
  unfold p2_free_list
  obtain ⟨n, hn2⟩ : ∃ n, p2.total_size = n + 1 := ⟨p2.total_size - 1, by omega⟩
  rw [h, hn2, buddy_chain, if_neg hb, hn, buddy_chain]
  simp

/-- C6 (exact scenario, as amended): on a fresh buddy pool of 1024 bytes (`max_order = 10`),
wherever the pool lies in the 64-bit address space and whatever the memory held before, with
the 24-byte header of the target, `p2_allocate(10)` computes order 6, succeeds and returns
the address of pool offset 0 plus the header size; `used_size` becomes 64, the block at
offset 0 has order 6 and is marked allocated, the free lists of the orders 6, 7, 8 and 9
hold exactly one block each, at the offsets 64, 128, 256 and 512, the list of order 10 and
the lists of the orders below 6 are empty, and each of the four free blocks carries its
order and is marked free. -/
theorem buddy_exact_scenario (wide : Bool) (pool : Nat) (mem : Nat → Nat)
    (p2 : PowerOf2Allocator) (hfit : pool + 1024 ≤ 2 ^ 64)
    (h : create_power_of_2_allocator wide 24 pool mem 1024 = .done (some p2)) :
    p2.total_size = 1024 ∧ p2.max_order = 10 ∧ p2_order wide 24 10 = 6 ∧
    ∃ q, p2_allocate wide 24 p2 10 = .done (q, pool + 0 + 24) ∧ q.used_size = 64 ∧
      block_order q.mem pool = 6 ∧ block_is_free q.mem pool = some false ∧
      p2_free_list q 6 = [pool + 64] ∧ p2_free_list q 7 = [pool + 128] ∧
      p2_free_list q 8 = [pool + 256] ∧ p2_free_list q 9 = [pool + 512] ∧
      p2_free_list q 10 = [] ∧ (∀ k, k < 6 → p2_free_list q k = []) ∧
      ((block_order q.mem (pool + 64) = 6 ∧ block_is_free q.mem (pool + 64) = some true) ∧
        (block_order q.mem (pool + 128) = 7 ∧ block_is_free q.mem (pool + 128) = some true) ∧
        (block_order q.mem (pool + 256) = 8 ∧ block_is_free q.mem (pool + 256) = some true) ∧
        (block_order q.mem (pool + 512) = 9 ∧
          block_is_free q.mem (pool + 512) = some true)) := by
  obtain ⟨hp, rfl⟩ := create_1024 wide pool mem p2 h
  have e3 : next_power_of_2 wide (size_wrap (10 + 24)) = 64 := by cases wide <;> decide
  have e5 : next_power_of_2 wide 34 = 64 := e3
  have e4 : log2_size 64 = 6 := by decide
  refine ⟨rfl, rfl, by rw [p2_order, e3, e4], ?_⟩
  simp only [p2_allocate, e3, e4]
  simp (disch := omega) only [find_order, split_blocks,
    Function.update_same, Function.update_noteq, ne_eq, hp,
    not_false_eq_true, if_false, if_true, block_next, load_word_store_word_same,
    load_word_store_word_apart, load_word_store_byte_apart, int_shl1, Nat.reduceLT,
    Nat.reduceSub, Nat.reducePow, Nat.reduceAdd, Nat.add_assoc, OfNat.ofNat_ne_zero, reduceIte,
    Nat.reduceEqDiff, gt_iff_lt, Nat.reduceLeDiff, and_true, and_false, true_and, size_wrap,
    Nat.reduceMod, Nat.add_zero, Nat.zero_add]
  refine ⟨_, rfl, rfl, ?_, ?_, ?_, ?_, ?_, ?_, ?_, ?_, ?_⟩
  · simp (disch := omega) only [block_order, load_word_store_word_same,
      load_word_store_word_apart, load_word_store_byte_apart]
  · simp only [block_is_free, load_bool, load_byte_store_byte_same]
    simp
  · refine p2_free_list_single _ 6 (pool + 64) ?_ (by omega) ?_ (by show 1 ≤ 1024; omega)
    · simp (disch := omega) only [Function.update_same]
    · simp (disch := omega) only [block_next, Nat.add_assoc, Nat.reduceAdd,
        load_word_store_word_same, load_word_store_word_apart, load_word_store_byte_apart]
  · refine p2_free_list_single _ 7 (pool + 128) ?_ (by omega) ?_ (by show 1 ≤ 1024; omega)
    · simp (disch := omega) only [Function.update_same, Function.update_noteq]
    · simp (disch := omega) only [block_next, Nat.add_assoc, Nat.reduceAdd,
        load_word_store_word_same, load_word_store_word_apart, load_word_store_byte_apart]
  · refine p2_free_list_single _ 8 (pool + 256) ?_ (by omega) ?_ (by show 1 ≤ 1024; omega)
    · simp (disch := omega) only [Function.update_same, Function.update_noteq]
    · simp (disch := omega) only [block_next, Nat.add_assoc, Nat.reduceAdd,
        load_word_store_word_same, load_word_store_word_apart, load_word_store_byte_apart]
  · refine p2_free_list_single _ 9 (pool + 512) ?_ (by omega) ?_ (by show 1 ≤ 1024; omega)
    · simp (disch := omega) only [Function.update_same, Function.update_noteq]
    · simp (disch := omega) only [block_next, Nat.add_assoc, Nat.reduceAdd,
        load_word_store_word_same, load_word_store_word_apart, load_word_store_byte_apart]
  · refine p2_free_list_nil _ 10 ?_
    simp (disch := omega) only [Function.update_same, Function.update_noteq]
  · intro k hk
    refine p2_free_list_nil _ k ?_
    simp (disch := omega) only [Function.update_noteq]
  · refine ⟨⟨?_, ?_⟩, ⟨?_, ?_⟩, ⟨?_, ?_⟩, ⟨?_, ?_⟩⟩
    · simp (disch := omega) only [block_order, load_word_store_word_same,
        load_word_store_word_apart, load_word_store_byte_apart]
    · simp (disch := omega) only [block_is_free, load_bool, Nat.add_assoc, Nat.reduceAdd,
        load_byte_store_byte_same, load_byte_store_byte_apart, load_byte_store_word_apart,
        ne_eq]
      simp
    · simp (disch := omega) only [block_order, load_word_store_word_same,
        load_word_store_word_apart, load_word_store_byte_apart]
    · simp (disch := omega) only [block_is_free, load_bool, Nat.add_assoc, Nat.reduceAdd,
        load_byte_store_byte_same, load_byte_store_byte_apart, load_byte_store_word_apart,
        ne_eq]
      simp
    · simp (disch := omega) only [block_order, load_word_store_word_same,
        load_word_store_word_apart, load_word_store_byte_apart]
    · simp (disch := omega) only [block_is_free, load_bool, Nat.add_assoc, Nat.reduceAdd,
        load_byte_store_byte_same, load_byte_store_byte_apart, load_byte_store_word_apart,
        ne_eq]
      simp
    · simp (disch := omega) only [block_order, load_word_store_word_same,
        load_word_store_word_apart, load_word_store_byte_apart]
    · simp (disch := omega) only [block_is_free, load_bool, Nat.add_assoc, Nat.reduceAdd,
        load_byte_store_byte_same, load_byte_store_byte_apart, load_byte_store_word_apart,
        ne_eq]
      simp

/-- Witness for C6: the pool of 1024 bytes at address 4096. -/
theorem buddy_exact_scenario_witness :
    4096 + 1024 ≤ 2 ^ 64 ∧
    create_power_of_2_allocator false 24 4096 demo_mem 1024 = .done (some demo_pool) ∧
      ∃ q, p2_allocate false 24 demo_pool 10 = .done (q, 4096 + 0 + 24) ∧ q.used_size = 64 ∧
        block_order q.mem 4096 = 6 ∧ block_is_free q.mem 4096 = some false ∧
        p2_free_list q 6 = [4096 + 64] ∧ p2_free_list q 7 = [4096 + 128] ∧
        p2_free_list q 8 = [4096 + 256] ∧ p2_free_list q 9 = [4096 + 512] ∧
        p2_free_list q 10 = [] :=
  have hw := (buddy_exact_scenario false 4096 demo_mem demo_pool (by norm_num) rfl).2.2.2
  ⟨by norm_num, rfl, hw.choose, hw.choose_spec.1, hw.choose_spec.2.1, hw.choose_spec.2.2.1,
    hw.choose_spec.2.2.2.1, hw.choose_spec.2.2.2.2.1, hw.choose_spec.2.2.2.2.2.1,
    hw.choose_spec.2.2.2.2.2.2.1, hw.choose_spec.2.2.2.2.2.2.2.1,
    hw.choose_spec.2.2.2.2.2.2.2.2.1⟩

/-- Counterexample for C6: the header of the code is 24 bytes long, its member `next` lies
at the offsets 16 to 24.  On the fresh 1024-byte pool at address 4096 `p2_allocate(10)`
computes order 6, not 5, on either build; `used_size` becomes 64, not 32, the returned
address is 24 bytes into the pool, and free list 5 is empty while list 6 holds the block at
offset 64. -/
theorem buddy_exact_scenario_header_24 :
    create_power_of_2_allocator false 24 4096 demo_mem 1024 = .done (some demo_pool) ∧
    create_power_of_2_allocator true 24 4096 demo_mem 1024 = .done (some demo_pool) ∧
    p2_order false 24 10 = 6 ∧ p2_order true 24 10 = 6 ∧
    (∃ q, p2_allocate false 24 demo_pool 10 = .done (q, 4096 + 24) ∧
      block_order q.mem 4096 = 6 ∧ q.used_size = 64 ∧ q.used_size ≠ 32 ∧
      p2_free_list q 5 = [] ∧ p2_free_list q 5 ≠ [4096 + 32] ∧
      p2_free_list q 6 = [4096 + 64]) ∧
    (∃ q, p2_allocate true 24 demo_pool 10 = .done (q, 4096 + 24) ∧
      block_order q.mem 4096 = 6 ∧ q.used_size = 64 ∧ q.used_size ≠ 32 ∧
      p2_free_list q 5 = [] ∧ p2_free_list q 5 ≠ [4096 + 32] ∧
      p2_free_list q 6 = [4096 + 64]) :=
  ⟨rfl, rfl, by decide, by decide,
    ⟨_, rfl, by decide, by decide, by decide, by decide, by decide, by decide⟩,
    ⟨_, rfl, by decide, by decide, by decide, by decide, by decide, by decide⟩⟩

/-! ## Segregated engine: the class table -/

theorem mk_class_sizes_le (M : Nat) :
    ∀ (fuel i x : Nat), x ∈ mk_class_sizes M fuel i → x ≤ M := by
  intro fuel
  induction fuel with
  | zero =>
    intro i x hx
    simp [mk_class_sizes] at hx
  | succ f ih =>
    intro i x hx
    rw [mk_class_sizes] at hx
    by_cases h1 : i ≥ 60
    · simp [h1] at hx
    · simp only [h1, if_false] at hx
      by_cases h2 : size_wrap (16 <<< i) > M
      · simp [h2] at hx
      · simp only [h2, if_false, List.mem_cons] at hx
        rcases hx with rfl | hx
        · omega
        · exact ih (i + 1) x hx

theorem mk_class_index_end (mk : McKusickKarelsAllocator) (size : Nat)
    (hlen : mk.num_classes = mk.class_sizes.length)
    (hsmall : ∀ x, x ∈ mk.class_sizes → x < size) :
    ∀ (fuel idx : Nat), idx + fuel = mk.num_classes →
      mk_class_index mk size fuel idx = mk.num_classes := by
  intro fuel
  induction fuel with
  | zero =>
    intro idx h
    simp only [mk_class_index]
    omega
  | succ f ih =>
    intro idx h
    rw [mk_class_index]
    have hidx : idx < mk.class_sizes.length := by omega
    have hget : mk.class_sizes.getD idx 0 < size := by
      rw [List.getD_eq_getElem _ _ hidx]
      exact hsmall _ (List.getElem_mem _)
    have hc : idx < mk.num_classes ∧ mk.class_sizes.getD idx 0 < size := ⟨by omega, hget⟩
    rw [if_pos hc]
    exact ih (idx + 1) (by omega)

theorem mk_allocate_too_large (mk : McKusickKarelsAllocator) (size : Nat)
    (hlen : mk.num_classes = mk.class_sizes.length)
    (hsmall : ∀ x, x ∈ mk.class_sizes → x < size) (h0 : size ≠ 0) :
    mk_allocate mk size = (mk, 0) := by
  unfold mk_allocate
  simp only [h0, if_false]
  rw [mk_class_index_end mk size hlen hsmall mk.num_classes 0 (by omega)]
  simp

/-- C7 (segregated ceiling): for every segregated allocator created over `total_size` bytes,
in whatever state its free lists are, and every request larger than `total_size / 2`,
`mk_allocate` returns null and changes nothing; on a 1024-byte pool the classes are 16 to 512
and a request of 600 bytes returns null. -/
theorem segregated_ceiling (pool : Nat) (words : Nat → Nat) (total_size : Nat)
    (mk : McKusickKarelsAllocator)
    (h : create_mk_allocator pool words total_size = some mk)
    (free_lists link : Nat → Nat) (used_size size : Nat) (hsize : size > total_size / 2) :
    mk_allocate { mk with free_lists := free_lists, link := link, used_size := used_size } size =
      ({ mk with free_lists := free_lists, link := link, used_size := used_size }, 0) ∧
    (total_size = 1024 → mk.class_sizes = [16, 32, 64, 128, 256, 512] ∧
      mk_allocate { mk with free_lists := free_lists, link := link, used_size := used_size } 600 =
        ({ mk with free_lists := free_lists, link := link, used_size := used_size }, 0)) := by
  unfold create_mk_allocator at h
  by_cases hp : pool = 0
  · simp [hp] at h
  · simp only [hp, if_false, Option.some.injEq] at h
    have hcs : mk.class_sizes = mk_class_sizes (total_size / 2) MK_NUM_SIZE_CLASSES 0 := by
      rw [← h]
    have hnum : mk.num_classes = mk.class_sizes.length := by rw [← h]
    have hle : ∀ x, x ∈ mk.class_sizes → x ≤ total_size / 2 := by
      intro x hx
      rw [hcs] at hx
      exact mk_class_sizes_le _ _ _ x hx
    refine ⟨?_, ?_⟩
    · apply mk_allocate_too_large
      · exact hnum
      · intro x hx
        have := hle x hx
        simp only at hx
        omega
      · omega
    · intro hT
      subst hT
      refine ⟨by rw [hcs]; decide, ?_⟩
      apply mk_allocate_too_large
      · exact hnum
      · intro x hx
        have := hle x hx
        omega
      · omega

/-- Witness for C7: the 1024-byte segregated pool at address 4096 and a request of 600. -/
theorem segregated_ceiling_witness :
    ∃ mk, create_mk_allocator 4096 demo_words 1024 = some mk ∧ 600 > 1024 / 2 ∧
      mk.class_sizes = [16, 32, 64, 128, 256, 512] ∧ mk.free_lists 0 = 4096 + 80 ∧
      mk_allocate mk 600 = (mk, 0) :=
  have h : create_mk_allocator 4096 demo_words 1024 = some _ := rfl
  have hw := segregated_ceiling 4096 demo_words 1024 _ h _ _ 0 600 (by decide)
  ⟨_, h, by decide, (hw.2 rfl).1, by decide, hw.1⟩

theorem mk_allocate_frame (mk : McKusickKarelsAllocator) (size : Nat) :
    (mk_allocate mk size).1.class_sizes = mk.class_sizes ∧
      (mk_allocate mk size).1.num_classes = mk.num_classes := by
  unfold mk_allocate
  by_cases h0 : size = 0
  · simp [h0]
  · simp only [h0, if_false]
    by_cases h1 : mk_class_index mk size mk.num_classes 0 ≥ mk.num_classes
    · simp [h1]
    · simp only [h1, if_false]
      by_cases h2 : mk.free_lists (mk_class_index mk size mk.num_classes 0) ≠ 0
      · simp [h2]
      · simp [h2]

/-! ## Segregated engine: the class scan and the list splice -/

theorem mk_class_index_spec (mk : McKusickKarelsAllocator) (size : Nat) :
    ∀ (fuel idx : Nat), idx ≤ mk.num_classes → mk.num_classes ≤ idx + fuel →
      idx ≤ mk_class_index mk size fuel idx ∧
      mk_class_index mk size fuel idx ≤ mk.num_classes ∧
      (∀ j, idx ≤ j → j < mk_class_index mk size fuel idx →
        mk.class_sizes.getD j 0 < size) ∧
      (mk_class_index mk size fuel idx < mk.num_classes →
        size ≤ mk.class_sizes.getD (mk_class_index mk size fuel idx) 0) := by
  intro fuel
  induction fuel with
  | zero =>
    intro idx h1 h2
    simp only [mk_class_index]
    refine ⟨le_refl _, h1, ?_, ?_⟩
    · intro j h3 h4; omega
    · intro h3; omega
  | succ f ih =>
    intro idx h1 h2
    rw [mk_class_index]
    by_cases hc : idx < mk.num_classes ∧ mk.class_sizes.getD idx 0 < size
    · rw [if_pos hc]
      obtain ⟨a1, a2, a3, a4⟩ := ih (idx + 1) (by omega) (by omega)
      refine ⟨by omega, a2, ?_, a4⟩
      intro j h3 h4
      by_cases hj : j = idx
      · rw [hj]; exact hc.2
      · exact a3 j (by omega) h4
    · rw [if_neg hc]
      refine ⟨le_refl _, h1, ?_, ?_⟩
      · intro j h3 h4; omega
      · intro h3
        by_contra h5
        exact hc ⟨h3, by omega⟩

/-- The class scan returns the least class index whose class size is at least `size`. -/
theorem mk_class_index_least (mk : McKusickKarelsAllocator) (size c : Nat)
    (hc : c < mk.num_classes) (hge : size ≤ mk.class_sizes.getD c 0)
    (hleast : ∀ j, j < c → mk.class_sizes.getD j 0 < size) :
    mk_class_index mk size mk.num_classes 0 = c := by
  obtain ⟨-, a2, a3, a4⟩ :=
    mk_class_index_spec mk size mk.num_classes 0 (Nat.zero_le _) (by omega)
  rcases Nat.lt_trichotomy (mk_class_index mk size mk.num_classes 0) c with h | h | h
  · have h1 := a4 (by omega)
    have h2 := hleast _ h
    omega
  · exact h
  · have := a3 c (Nat.zero_le _) h
    omega

theorem mk_chain_congr (link1 link2 : Nat → Nat) :
    ∀ (fuel head : Nat), (∀ x, x ∈ mk_chain link1 fuel head → link2 x = link1 x) →
      mk_chain link2 fuel head = mk_chain link1 fuel head := by
  intro fuel
  induction fuel with
  | zero => intro head _; rfl
  | succ f ih =>
    intro head h
    rw [mk_chain, mk_chain]
    by_cases h0 : head = 0
    · rw [if_pos h0, if_pos h0]
    · rw [if_neg h0, if_neg h0]
      have hmem : head ∈ mk_chain link1 (f + 1) head := by
        rw [mk_chain, if_neg h0]
        exact List.mem_cons_self _ _
      rw [h head hmem]
      rw [ih (link1 head)]
      intro x hx
      apply h
      rw [mk_chain, if_neg h0]
      exact List.mem_cons_of_mem _ hx

/-- A free list that does not pass through the address `p` is not affected by a store
to `p`. -/
theorem mk_chain_update (link : Nat → Nat) (p v fuel head : Nat)
    (h : p ∉ mk_chain link fuel head) :
    mk_chain (Function.update link p v) fuel head = mk_chain link fuel head := by
  apply mk_chain_congr
  intro x hx
  have : x ≠ p := by
    intro e
    rw [e] at hx
    exact h hx
  exact Function.update_noteq this _ _

/-- C12 (segregated no-borrowing): for every state of the segregated engine and every
size > 0 whose selected class, the least class with class size at least `size`, has an empty
free list, `mk_allocate` returns null and leaves the whole state, in particular `used_size`
and all free lists, unchanged, whatever the free lists of the larger classes hold. -/
theorem segregated_no_borrowing (mk : McKusickKarelsAllocator) (size c : Nat)
    (hsize : 0 < size) (hc : c < mk.num_classes) (hge : size ≤ mk.class_sizes.getD c 0)
    (hleast : ∀ j, j < c → mk.class_sizes.getD j 0 < size) (hempty : mk.free_lists c = 0) :
    mk_allocate mk size = (mk, 0) := by
  have hidx := mk_class_index_least mk size c hc hge hleast
  unfold mk_allocate
  have h0 : size ≠ 0 := by omega
  have h1 : ¬(c ≥ mk.num_classes) := by omega
  simp only [h0, if_false, hidx, h1, hempty, ne_eq, not_true_eq_false]

/-- Witness for C12: on the fresh 1024-byte segregated pool the 64-byte class has one block.
Once it is handed out, a second request of 64 bytes returns null although the 128-byte class
still has a free block. -/
theorem segregated_no_borrowing_witness :
    ∃ mk0 mk1, create_mk_allocator 4096 demo_words 1024 = some mk0 ∧
      mk_allocate mk0 64 = (mk1, 4096 + 192) ∧
      mk1.class_sizes.getD 2 0 = 64 ∧ mk1.free_lists 2 = 0 ∧ mk1.free_lists 3 = 4096 + 256 ∧
      mk_allocate mk1 64 = (mk1, 0) :=
  have h : create_mk_allocator 4096 demo_words 1024 = some _ := rfl
  ⟨_, _, h, rfl, by decide, by decide, by decide,
    segregated_no_borrowing _ 64 2 (by decide) (by decide) (by decide)
      (by intro j hj; interval_cases j <;> decide) (by decide)⟩

/-! ## Segregated engine: the class table written by the constructor -/

/-- The class-size loop writes `16 * 2 ^ i`, `16 * 2 ^ (i + 1)`, ... for as long as the
value does not exceed `max_size_class` and the loop has rounds left. -/
theorem mk_class_sizes_spec (M : Nat) :
    ∀ (fuel i : Nat), i + fuel ≤ 60 →
      ∃ k, k ≤ fuel ∧
        mk_class_sizes M fuel i = (List.range k).map (fun j => 16 * 2 ^ (i + j)) ∧
        (∀ j, j < k → 16 * 2 ^ (i + j) ≤ M) ∧ (k < fuel → M < 16 * 2 ^ (i + k)) := by
  intro fuel
  induction fuel with
  | zero =>
    intro i _
    exact ⟨0, le_refl _, rfl, by intro j hj; omega, by intro h; omega⟩
  | succ f ih =>
    intro i hi
    rw [mk_class_sizes]
    have h60 : ¬(i ≥ 60) := by omega
    have hlt : 16 * 2 ^ i < 2 ^ 64 := by
      have h1 : (2 : Nat) ^ i ≤ 2 ^ 59 := Nat.pow_le_pow_right (by omega) (by omega)
      have h2 : (2 : Nat) ^ 64 = 16 * 2 ^ 59 * 2 := by norm_num
      omega
    have hval : size_wrap (16 <<< i) = 16 * 2 ^ i := by
      rw [Nat.shiftLeft_eq, size_wrap, Nat.mod_eq_of_lt hlt]
    simp only [h60, if_false, hval]
    by_cases hgt : 16 * 2 ^ i > M
    · simp only [hgt, if_true]
      refine ⟨0, Nat.zero_le _, rfl, by intro j hj; omega, ?_⟩
      intro _
      simpa using hgt
    · simp only [hgt, if_false]
      obtain ⟨k, hk, e, h1, h2⟩ := ih (i + 1) (by omega)
      refine ⟨k + 1, by omega, ?_, ?_, ?_⟩
      · rw [e, List.range_succ_eq_map, List.map_cons, List.map_map]
        simp only [Nat.add_zero, List.cons.injEq, true_and]
        apply List.map_congr_left
        intro j _
        simp only [Function.comp]
        congr 2
        omega
      · intro j hj
        cases j with
        | zero => simpa using Nat.le_of_not_gt hgt
        | succ j =>
          have := h1 j (by omega)
          have e2 : i + (j + 1) = i + 1 + j := by omega
          rw [e2]
          exact this
      · intro hlt2
        have := h2 (by omega)
        have e2 : i + (k + 1) = i + 1 + k := by omega
        rw [e2]
        exact this

/-- The number of exponents below `n` whose class size fits is the first exponent whose class
size does not fit. -/
theorem card_fitting_classes (M k n : Nat) (hkn : k ≤ n)
    (h1 : ∀ j, j < k → 16 * 2 ^ j ≤ M) (h2 : k < n → M < 16 * 2 ^ k) :
    ((Finset.range n).filter (fun i => 16 * 2 ^ i ≤ M)).card = k := by
  have hset : (Finset.range n).filter (fun i => 16 * 2 ^ i ≤ M) = Finset.range k := by
    ext i
    simp only [Finset.mem_filter, Finset.mem_range]
    constructor
    · rintro ⟨hin, hi⟩
      by_contra hc
      have hki : k ≤ i := by omega
      have hk : k < n := by omega
      have := h2 hk
      have hpow : (2 : Nat) ^ k ≤ 2 ^ i := Nat.pow_le_pow_right (by omega) hki
      omega
    · intro hi
      exact ⟨by omega, h1 i hi⟩
  rw [hset, Finset.card_range]

/-- C14 (segregated class table): for every `total_size`, after `create_mk_allocator` the
class sizes are `class_sizes[i] = 16 * 2 ^ i` for `i < num_classes`, strictly increasing,
each at most `total_size / 2`; `num_classes` is at most 32 and equals the smaller of 32 and
the number of exponents `i` with `16 * 2 ^ i ≤ total_size / 2`, which for a `size_t` are all
below 64; so `num_classes = 0` when `total_size < 32`. -/
theorem segregated_class_table (pool : Nat) (words : Nat → Nat) (total_size : Nat)
    (mk : McKusickKarelsAllocator) (hT : total_size < 2 ^ 64)
    (h : create_mk_allocator pool words total_size = some mk) :
    mk.num_classes = mk.class_sizes.length ∧
    mk.class_sizes = (List.range mk.num_classes).map (fun i => 16 * 2 ^ i) ∧
    (∀ i, i < mk.num_classes → mk.class_sizes.getD i 0 = 16 * 2 ^ i) ∧
    mk.class_sizes.Pairwise (fun a b => a < b) ∧
    (∀ x, x ∈ mk.class_sizes → x ≤ total_size / 2) ∧
    mk.num_classes ≤ 32 ∧
    (∀ i, 16 * 2 ^ i ≤ total_size / 2 → i < 64) ∧
    mk.num_classes =
      min 32 ((Finset.range 64).filter (fun i => 16 * 2 ^ i ≤ total_size / 2)).card ∧
    (total_size < 32 → mk.num_classes = 0) := by
  unfold create_mk_allocator at h
  by_cases hp : pool = 0
  · simp [hp] at h
  · simp only [hp, if_false, Option.some.injEq] at h
    have hcs : mk.class_sizes = mk_class_sizes (total_size / 2) MK_NUM_SIZE_CLASSES 0 := by
      rw [← h]
    have hnum : mk.num_classes = mk.class_sizes.length := by rw [← h]
    obtain ⟨k, hk, e, h1, h2⟩ := mk_class_sizes_spec (total_size / 2) 32 0 (by omega)
    simp only [Nat.zero_add] at e h1 h2
    have hcs2 : mk.class_sizes = (List.range k).map (fun j => 16 * 2 ^ j) := by
      rw [hcs]; exact e
    have hnk : mk.num_classes = k := by
      rw [hnum, hcs2, List.length_map, List.length_range]
    have h64 : ∀ i, 16 * 2 ^ i ≤ total_size / 2 → i < 64 := by
      intro i hi
      by_contra hc
      have : (2 : Nat) ^ 64 ≤ 2 ^ i := Nat.pow_le_pow_right (by omega) (by omega)
      omega
    refine ⟨hnum, by rw [hnk]; exact hcs2, ?_, ?_, ?_, by omega, h64, ?_, ?_⟩
    · intro i hi
      rw [hcs2, List.getD_eq_getElem?_getD, List.getElem?_map,
        List.getElem?_range (by omega)]
      rfl
    · rw [hcs2, List.pairwise_map]
      refine List.Pairwise.imp ?_ (List.pairwise_lt_range k)
      intro a b hab
      have : (2 : Nat) ^ a < 2 ^ b := Nat.pow_lt_pow_right (by omega) hab
      omega
    · intro x hx
      rw [hcs] at hx
      exact mk_class_sizes_le _ _ _ x hx
    · rw [hnk]
      by_cases hk32 : k < 32
      · rw [card_fitting_classes (total_size / 2) k 64 (by omega) h1 (fun _ => h2 hk32)]
        omega
      · have hk' : k = 32 := by omega
        have hsub : Finset.range 32 ⊆
            (Finset.range 64).filter (fun i => 16 * 2 ^ i ≤ total_size / 2) := by
          intro i hi
          simp only [Finset.mem_range] at hi
          simp only [Finset.mem_filter, Finset.mem_range]
          exact ⟨by omega, h1 i (by omega)⟩
        have := Finset.card_le_card hsub
        rw [Finset.card_range] at this
        omega
    · intro hsmall
      rw [hnk]
      by_contra hc
      have := h1 0 (by omega)
      omega

/-- Witness for C14: the 1024-byte pool has the six classes 16 to 512. -/
theorem segregated_class_table_witness :
    ∃ mk, create_mk_allocator 4096 demo_words 1024 = some mk ∧ 1024 < 2 ^ 64 ∧
      mk.class_sizes = [16, 32, 64, 128, 256, 512] ∧ mk.num_classes = 6 ∧
      mk.num_classes =
        min 32 ((Finset.range 64).filter (fun i => 16 * 2 ^ i ≤ 1024 / 2)).card :=
  have h : create_mk_allocator 4096 demo_words 1024 = some _ := rfl
  have hw := segregated_class_table 4096 demo_words 1024 _ (by norm_num) h
  ⟨_, h, by norm_num, by decide, by decide, hw.2.2.2.2.2.2.2.1⟩

/-! ## Segregated engine: the carving of the pool -/

theorem testBit_align_mask (i : Nat) :
    (2 ^ 64 - 8 : Nat).testBit i = (decide (3 ≤ i) && decide (i < 64)) := by
  have e : (2 ^ 64 - 8 : Nat) = 2 ^ 3 * (2 ^ 61 - 1) := by norm_num
  rw [e, Nat.testBit_mul_pow_two, Nat.testBit_two_pow_sub_one]
  by_cases h3 : 3 ≤ i
  · by_cases h64 : i < 64
    · have : i - 3 < 61 := by omega
      simp [h3, h64, this]
    · have : ¬(i - 3 < 61) := by omega
      simp [h3, h64, this]
  · simp [h3]

/-- Rounding a `size_t` down to a multiple of 8 with the mask `~(alignment - 1)`. -/
theorem and_align_mask (x : Nat) (hx : x < 2 ^ 64) : x &&& (2 ^ 64 - 8) = 8 * (x / 8) := by
  apply Nat.eq_of_testBit_eq
  intro i
  have e8 : (8 : Nat) = 2 ^ 3 := by norm_num
  rw [Nat.testBit_and, testBit_align_mask, e8, Nat.testBit_mul_pow_two,
    ← Nat.shiftRight_eq_div_pow, Nat.testBit_shiftRight]
  by_cases h3 : 3 ≤ i
  · by_cases h64 : i < 64
    · have e : 3 + (i - 3) = i := by omega
      simp [h3, h64, e]
    · have hlt : x < 2 ^ i := lt_of_lt_of_le hx (Nat.pow_le_pow_right (by omega) (by omega))
      have e : 3 + (i - 3) = i := by omega
      simp [h3, h64, e, Nat.testBit_lt_two_pow hlt]
  · simp [h3]

/-- The aligned offset computed on line 90 is the offset itself when the offset is a multiple
of the pointer size. -/
theorem aligned_offset_eq (off : Nat) (h8 : 8 ∣ off) (hlt : off + 8 ≤ 2 ^ 64) :
    size_wrap (off + 8 - 1) &&& (2 ^ 64 - 8) = off := by
  have h1 : size_wrap (off + 8 - 1) = off + 7 := by
    rw [size_wrap]
    exact Nat.mod_eq_of_lt (by omega)
  rw [h1, and_align_mask _ (by omega)]
  omega

theorem mk_chain_null (link : Nat → Nat) (fuel : Nat) : mk_chain link fuel 0 = [] := by
  cases fuel with
  | zero => rfl
  | succ f => simp [mk_chain]

theorem block_run_shift (base bs : Nat) :
    ∀ k, block_run base bs (k + 1) = block_run (base + bs) bs k ++ [base] := by
  intro k
  induction k with
  | zero => simp [block_run]
  | succ k ih =>
    rw [block_run, ih, block_run]
    have e : base + (k + 1) * bs = base + bs + k * bs := by
      rw [Nat.succ_mul]; omega
    rw [e, List.cons_append]

theorem mem_block_run (base bs : Nat) :
    ∀ k x, x ∈ block_run base bs k ↔ ∃ j, j < k ∧ x = base + j * bs := by
  intro k
  induction k with
  | zero =>
    intro x
    simp [block_run]
  | succ k ih =>
    intro x
    rw [block_run, List.mem_cons, ih]
    constructor
    · rintro (e | ⟨j, hj, e⟩)
      · exact ⟨k, by omega, e⟩
      · exact ⟨j, by omega, e⟩
    · rintro ⟨j, hj, e⟩
      by_cases hjk : j = k
      · left; rw [e, hjk]
      · right; exact ⟨j, by omega, e⟩

theorem length_block_run (base bs : Nat) : ∀ k, (block_run base bs k).length = k := by
  intro k
  induction k with
  | zero => rfl
  | succ k ih => rw [block_run, List.length_cons, ih]

theorem nodup_block_run (base bs : Nat) (hbs : 0 < bs) :
    ∀ k, (block_run base bs k).Nodup := by
  intro k
  induction k with
  | zero => exact List.nodup_nil
  | succ k ih =>
    rw [block_run, List.nodup_cons]
    refine ⟨?_, ih⟩
    intro hmem
    obtain ⟨j, hj, e⟩ := (mem_block_run base bs k _).mp hmem
    have : j * bs < k * bs := Nat.mul_lt_mul_of_pos_right hj hbs
    omega

/-- The inner carving loop: it places `min n ((total_size - offset) / block_size)` adjacent
blocks starting at `offset` and threads them on list `class_idx` in front of what the list
held. -/
theorem mk_carve_blocks_spec (pool total c bs : Nat) (hpool : 0 < pool)
    (hbs0 : 0 < bs) (hbs8 : 8 ∣ bs) :
    ∀ (n : Nat) (fl link : Nat → Nat) (off : Nat),
      8 ∣ off → off ≤ total → off + (n + 1) * bs + 8 ≤ 2 ^ 64 →
      (mk_carve_blocks pool total c bs n (fl, link, off)).2.2 =
        off + min n ((total - off) / bs) * bs ∧
      (∀ c', c' ≠ c → (mk_carve_blocks pool total c bs n (fl, link, off)).1 c' = fl c') ∧
      (∀ a, a < pool + off →
        (mk_carve_blocks pool total c bs n (fl, link, off)).2.1 a = link a) ∧
      (∀ F, (∀ x, x ∈ mk_chain link F (fl c) → x < pool + off) →
        mk_chain (mk_carve_blocks pool total c bs n (fl, link, off)).2.1
            (F + min n ((total - off) / bs))
            ((mk_carve_blocks pool total c bs n (fl, link, off)).1 c) =
          block_run (pool + off) bs (min n ((total - off) / bs)) ++
            mk_chain link F (fl c)) := by
  intro n
  induction n with
  | zero =>
    intro fl link off _ _ _
    simp [mk_carve_blocks, block_run]
  | succ n ih =>
    intro fl link off h8 hle hb
    have hmul : (n + 1 + 1) * bs = (n + 1) * bs + bs := Nat.succ_mul _ _
    have hmul2 : (n + 1) * bs = n * bs + bs := Nat.succ_mul _ _
    have hw1 : size_wrap (off + bs) = off + bs := by
      rw [size_wrap]
      exact Nat.mod_eq_of_lt (by omega)
    rw [mk_carve_blocks]
    by_cases hfit : off + bs ≤ total
    · have hal : size_wrap (off + 8 - 1) &&& (2 ^ 64 - 8) = off :=
        aligned_offset_eq off h8 (by omega)
      have hnot : ¬(off + bs > total) := by omega
      simp only [hw1, hfit, if_true, hal, hnot, if_false]
      obtain ⟨i1, i2, i3, i4⟩ := ih (Function.update fl c (pool + off))
        (Function.update link (pool + off) (fl c)) (off + bs)
        ((Nat.dvd_add_right h8).mpr hbs8) hfit (by omega)
      have hdiv : (total - off) / bs = (total - (off + bs)) / bs + 1 := by
        have e : total - off = total - (off + bs) + bs := by omega
        rw [e, Nat.add_div_right _ hbs0]
      have hk : min (n + 1) ((total - off) / bs) = min n ((total - (off + bs)) / bs) + 1 := by
        rw [hdiv]; omega
      rw [hk]
      refine ⟨?_, ?_, ?_, ?_⟩
      · rw [i1, Nat.succ_mul]; omega
      · intro c' hc'
        rw [i2 c' hc', Function.update_noteq hc']
      · intro a ha
        rw [i3 a (by omega), Function.update_noteq (by omega)]
      · intro F hF
        have hbnot : pool + off ∉ mk_chain link F (fl c) := by
          intro hin
          have := hF _ hin
          omega
        have hchain1 : mk_chain (Function.update link (pool + off) (fl c)) (F + 1)
            (Function.update fl c (pool + off) c) =
              (pool + off) :: mk_chain link F (fl c) := by
          rw [Function.update_same, mk_chain, if_neg (by omega), Function.update_same,
            mk_chain_update link _ _ F _ hbnot]
        have h4 := i4 (F + 1) (by
          intro x hx
          rw [hchain1] at hx
          rcases List.mem_cons.mp hx with e | hx
          · omega
          · have := hF x hx
            omega)
        have eF : F + (min n ((total - (off + bs)) / bs) + 1) =
            F + 1 + min n ((total - (off + bs)) / bs) := by omega
        have eb : pool + (off + bs) = pool + off + bs := by omega
        rw [eF, h4, hchain1, block_run_shift, eb, List.append_assoc, List.singleton_append]
    · have hnot : ¬(size_wrap (off + bs) ≤ total) := by rw [hw1]; exact hfit
      simp only [hnot, if_false]
      have hdiv : (total - off) / bs = 0 := Nat.div_eq_of_lt (by omega)
      rw [hdiv]
      simp [block_run]

theorem clamp_eq (x : Nat) :
    (if (if x = 0 then 1 else x) > 100 then 100 else (if x = 0 then 1 else x)) =
      max 1 (min 100 x) := by
  split_ifs <;> omega

theorem expected_carving_length (total : Nat) :
    ∀ (sizes : List Nat) (off : Nat), (expected_carving total sizes off).length = sizes.length := by
  intro sizes
  induction sizes with
  | nil => intro off; rfl
  | cons bs rest ih =>
    intro off
    simp only [expected_carving, List.length_cons, ih]

/-- Once the running offset has reached `total_size`, no class gets a block. -/
theorem expected_carving_full (total : Nat) :
    ∀ (sizes : List Nat) (i : Nat) (e : Nat × Nat),
      (expected_carving total sizes total)[i]? = some e → e = (total, 0) := by
  intro sizes
  induction sizes with
  | nil =>
    intro i e h
    simp [expected_carving] at h
  | cons bs rest ih =>
    intro i e h
    simp only [expected_carving, Nat.sub_self, Nat.zero_div, Nat.min_zero, Nat.zero_mul,
      Nat.add_zero] at h
    cases i with
    | zero =>
      simp only [List.getElem?_cons_zero, Option.some.injEq] at h
      exact h.symm
    | succ i =>
      rw [List.getElem?_cons_succ] at h
      exact ih i e h

/-- Every class of the expected carving starts at or after the running offset, at a multiple
of 8, ends inside the pool and has at most 100 blocks, the number the specification
names. -/
theorem expected_carving_bounds (total : Nat) :
    ∀ (sizes : List Nat) (off : Nat), off ≤ total → 8 ∣ off → (∀ bs, bs ∈ sizes → 8 ∣ bs) →
      ∀ (i s c : Nat), (expected_carving total sizes off)[i]? = some (s, c) →
        off ≤ s ∧ 8 ∣ s ∧ s + c * sizes.getD i 0 ≤ total ∧ c ≤ 100 ∧
        c = min (max 1 (min 100 (total / 10 / sizes.getD i 0)))
          ((total - s) / sizes.getD i 0) := by
  intro sizes
  induction sizes with
  | nil =>
    intro off _ _ _ i s c h
    simp [expected_carving] at h
  | cons bs rest ih =>
    intro off hle h8 hall i s c h
    simp only [expected_carving] at h
    have hk : min (max 1 (min 100 (total / 10 / bs))) ((total - off) / bs) * bs ≤
        total - off :=
      le_trans (Nat.mul_le_mul_right bs (Nat.min_le_right _ _)) (Nat.div_mul_le_self _ _)
    cases i with
    | zero =>
      simp only [List.getElem?_cons_zero, Option.some.injEq, Prod.mk.injEq] at h
      obtain ⟨rfl, rfl⟩ := h
      simp only [List.getD_cons_zero]
      exact ⟨le_refl _, h8, by omega, by omega, trivial⟩
    | succ i =>
      rw [List.getElem?_cons_succ] at h
      have h8' : 8 ∣ off + min (max 1 (min 100 (total / 10 / bs))) ((total - off) / bs) * bs :=
        (Nat.dvd_add_right h8).mpr (Dvd.dvd.mul_left (hall bs (List.mem_cons_self _ _)) _)
      obtain ⟨a1, a2, a3, a4, a5⟩ := ih _ (by omega) h8'
        (fun b hb => hall b (List.mem_cons_of_mem _ hb)) i s c h
      simp only [List.getD_cons_succ]
      exact ⟨by omega, a2, a3, a4, a5⟩

/-- The classes of the expected carving follow one another: a class ends where or before
every later class starts. -/
theorem expected_carving_order (total : Nat) :
    ∀ (sizes : List Nat) (off : Nat), off ≤ total →
      ∀ (i j si ci sj cj : Nat), i < j →
        (expected_carving total sizes off)[i]? = some (si, ci) →
        (expected_carving total sizes off)[j]? = some (sj, cj) →
        si + ci * sizes.getD i 0 ≤ sj := by
  intro sizes
  induction sizes with
  | nil =>
    intro off _ i j si ci sj cj _ h
    simp [expected_carving] at h
  | cons bs rest ih =>
    intro off hle i j si ci sj cj hij hi hj
    simp only [expected_carving] at hi hj
    have hk : min (max 1 (min 100 (total / 10 / bs))) ((total - off) / bs) * bs ≤
        total - off :=
      le_trans (Nat.mul_le_mul_right bs (Nat.min_le_right _ _)) (Nat.div_mul_le_self _ _)
    cases j with
    | zero => omega
    | succ j =>
      rw [List.getElem?_cons_succ] at hj
      cases i with
      | zero =>
        simp only [List.getElem?_cons_zero, Option.some.injEq, Prod.mk.injEq] at hi
        obtain ⟨rfl, rfl⟩ := hi
        simp only [List.getD_cons_zero]
        -- the later class starts at or after the offset the first class leaves
        have hstart : ∀ (sizes : List Nat) (o : Nat) (m s c : Nat),
            (expected_carving total sizes o)[m]? = some (s, c) → o ≤ s := by
          intro sizes2
          induction sizes2 with
          | nil =>
            intro o m s c h
            simp [expected_carving] at h
          | cons b r ih2 =>
            intro o m s c h
            simp only [expected_carving] at h
            cases m with
            | zero =>
              simp only [List.getElem?_cons_zero, Option.some.injEq, Prod.mk.injEq] at h
              omega
            | succ m =>
              rw [List.getElem?_cons_succ] at h
              have := ih2 _ m s c h
              omega
        exact hstart rest _ j sj cj hj
      | succ i =>
        rw [List.getElem?_cons_succ] at hi
        simp only [List.getD_cons_succ]
        exact ih _ (by omega) i j si ci sj cj (by omega) hi hj

/-- The blocks of the expected carving take no more bytes than the pool has beyond the
running offset. -/
theorem expected_carving_sum (total : Nat) :
    ∀ (sizes : List Nat) (off : Nat), off ≤ total →
      off + ∑ i in Finset.range sizes.length,
        ((expected_carving total sizes off).getD i (0, 0)).2 * sizes.getD i 0 ≤ total := by
  intro sizes
  induction sizes with
  | nil =>
    intro off hle
    simpa using hle
  | cons bs rest ih =>
    intro off hle
    have hk : min (max 1 (min 100 (total / 10 / bs))) ((total - off) / bs) * bs ≤
        total - off :=
      le_trans (Nat.mul_le_mul_right bs (Nat.min_le_right _ _)) (Nat.div_mul_le_self _ _)
    have := ih (off + min (max 1 (min 100 (total / 10 / bs))) ((total - off) / bs) * bs)
      (by omega)
    rw [List.length_cons, Finset.sum_range_succ']
    simp only [expected_carving, List.getD_cons_succ, List.getD_cons_zero]
    omega

/-- The outer carving loop gives every class the run of blocks that the expected carving
names: class `idx + i` gets `count` adjacent blocks starting at offset `start`. -/
theorem mk_carve_classes_spec (pool total : Nat) (hpool : 0 < pool) :
    ∀ (sizes : List Nat) (idx : Nat) (fl link : Nat → Nat) (off : Nat),
      (∀ bs, bs ∈ sizes → 8 ≤ bs ∧ 8 ∣ bs ∧ bs ≤ 2 ^ 35) → idx + sizes.length ≤ 32 →
      8 ∣ off → off ≤ total → off ≤ idx * (100 * 2 ^ 35) → (∀ c, idx ≤ c → fl c = 0) →
      (∀ c, c < idx → (mk_carve_classes pool total sizes idx (fl, link, off)).1 c = fl c) ∧
      (∀ a, a < pool + off →
        (mk_carve_classes pool total sizes idx (fl, link, off)).2.1 a = link a) ∧
      (∀ i start count, (expected_carving total sizes off)[i]? = some (start, count) →
        ∀ F, mk_chain (mk_carve_classes pool total sizes idx (fl, link, off)).2.1 (F + count)
            ((mk_carve_classes pool total sizes idx (fl, link, off)).1 (idx + i)) =
          block_run (pool + start) (sizes.getD i 0) count) := by
  intro sizes
  induction sizes with
  | nil =>
    intro idx fl link off _ _ _ _ _ _
    refine ⟨fun _ _ => rfl, fun _ _ => rfl, ?_⟩
    intro i start count h
    simp [expected_carving] at h
  | cons bs rest ih =>
    intro idx fl link off hall hlen h8 hle hoff hfl
    obtain ⟨hb8, hbd, hb35⟩ := hall bs (List.mem_cons_self _ _)
    have hlen' : idx + rest.length + 1 ≤ 32 := by
      simpa [List.length_cons, Nat.add_assoc] using hlen
    rw [mk_carve_classes]
    by_cases hlt : off < total
    · have hn8 : ¬(bs < 8) := by omega
      simp only [hlt, if_true, hn8, if_false, clamp_eq]
      have hidx : idx * (100 * 2 ^ 35) ≤ 31 * (100 * 2 ^ 35) :=
        Nat.mul_le_mul_right _ (by omega)
      have hnb : (max 1 (min 100 (total / 10 / bs)) + 1) * bs ≤ 101 * 2 ^ 35 :=
        Nat.mul_le_mul (by omega) hb35
      obtain ⟨j1, j2, j3, j4⟩ := mk_carve_blocks_spec pool total idx bs hpool (by omega) hbd
        (max 1 (min 100 (total / 10 / bs))) fl link off h8 hle (by
          have : (2 : Nat) ^ 64 = 2 ^ 35 * 2 ^ 29 := by norm_num
          omega)
      have hk : min (max 1 (min 100 (total / 10 / bs))) ((total - off) / bs) * bs ≤
          total - off :=
        le_trans (Nat.mul_le_mul_right bs (Nat.min_le_right _ _)) (Nat.div_mul_le_self _ _)
      have hk2 : min (max 1 (min 100 (total / 10 / bs))) ((total - off) / bs) * bs ≤
          100 * 2 ^ 35 := Nat.mul_le_mul (by omega) hb35
      rcases hr1 : mk_carve_blocks pool total idx bs (max 1 (min 100 (total / 10 / bs)))
        (fl, link, off) with ⟨fl1, link1, off1⟩
      rw [hr1] at j1 j2 j3 j4
      simp only at j1 j2 j3 j4
      have hfl1 : ∀ c, idx + 1 ≤ c → fl1 c = 0 := by
        intro c hc
        rw [j2 c (by omega)]
        exact hfl c (by omega)
      have h8' : 8 ∣ off1 := by
        rw [j1]
        exact (Nat.dvd_add_right h8).mpr (Dvd.dvd.mul_left hbd _)
      obtain ⟨k1, k2, k3⟩ := ih (idx + 1) fl1 link1 off1
        (fun b hb => hall b (List.mem_cons_of_mem _ hb)) (by omega) h8' (by omega)
        (by rw [j1, Nat.succ_mul]; omega) hfl1
      refine ⟨?_, ?_, ?_⟩
      · intro c hc
        rw [k1 c (by omega), j2 c (by omega)]
      · intro a ha
        rw [k2 a (by omega), j3 a ha]
      · intro i start count h
        simp only [expected_carving] at h
        cases i with
        | zero =>
          simp only [List.getElem?_cons_zero, Option.some.injEq, Prod.mk.injEq] at h
          obtain ⟨rfl, rfl⟩ := h
          intro F
          simp only [Nat.add_zero, List.getD_cons_zero]
          have hc1 := j4 F (by
            intro x hx
            rw [hfl idx (le_refl _), mk_chain_null] at hx
            simp at hx)
          rw [hfl idx (le_refl _), mk_chain_null, List.append_nil] at hc1
          rw [k1 idx (by omega)]
          rw [mk_chain_congr link1 _ _ _, hc1]
          intro x hx
          rw [hc1] at hx
          obtain ⟨j, hj, e⟩ := (mem_block_run _ _ _ _).mp hx
          apply k2
          have : (j + 1) * bs ≤
              min (max 1 (min 100 (total / 10 / bs))) ((total - off) / bs) * bs :=
            Nat.mul_le_mul_right bs hj
          rw [Nat.succ_mul] at this
          omega
        | succ i =>
          rw [List.getElem?_cons_succ, ← j1] at h
          intro F
          have := k3 i start count h F
          simp only [List.getD_cons_succ]
          have e : idx + (i + 1) = idx + 1 + i := by omega
          rw [e]
          exact this
    · have hoff' : off = total := by omega
      simp only [hlt, if_false, implies_true, true_and]
      intro i start count h
      rw [hoff'] at h
      have he := expected_carving_full total _ i _ h
      simp only [Prod.mk.injEq] at he
      obtain ⟨-, rfl⟩ := he
      intro F
      rw [hfl _ (by omega), mk_chain_null]
      rfl

theorem expected_carving_get (total : Nat) (sizes : List Nat) (off i : Nat)
    (hi : i < sizes.length) :
    ∃ s c, (expected_carving total sizes off)[i]? = some (s, c) ∧
      (expected_carving total sizes off).getD i (0, 0) = (s, c) := by
  have hlen : i < (expected_carving total sizes off).length := by
    rw [expected_carving_length]; exact hi
  refine ⟨((expected_carving total sizes off)[i]).1, ((expected_carving total sizes off)[i]).2,
    ?_, ?_⟩
  · rw [List.getElem?_eq_getElem hlen]
  · rw [List.getD_eq_getElem _ _ hlen]

/-- The running offset of a class in the expected carving is the initial offset plus the
bytes of the blocks of all earlier classes. -/
theorem expected_carving_start (total : Nat) :
    ∀ (sizes : List Nat) (off i s c : Nat),
      (expected_carving total sizes off)[i]? = some (s, c) →
      s = off + ∑ j in Finset.range i,
        ((expected_carving total sizes off).getD j (0, 0)).2 * sizes.getD j 0 := by
  intro sizes
  induction sizes with
  | nil =>
    intro off i s c h
    simp [expected_carving] at h
  | cons bs rest ih =>
    intro off i s c h
    cases i with
    | zero =>
      simp only [expected_carving, List.getElem?_cons_zero, Option.some.injEq,
        Prod.mk.injEq] at h
      simp only [Finset.range_zero, Finset.sum_empty, Nat.add_zero]
      exact h.1.symm
    | succ i =>
      simp only [expected_carving, List.getElem?_cons_succ] at h
      have := ih _ i s c h
      rw [Finset.sum_range_succ']
      simp only [expected_carving, List.getD_cons_succ, List.getD_cons_zero]
      omega

/-- The free lists that `create_mk_allocator` builds: list `i` holds the run of `count`
adjacent blocks that starts at offset `start`, where `(start, count)` is entry `i` of the
expected carving. -/
theorem create_mk_carving (pool : Nat) (words : Nat → Nat) (total : Nat)
    (mk : McKusickKarelsAllocator) (h : create_mk_allocator pool words total = some mk) :
    mk.memory_pool = pool ∧ mk.num_classes = mk.class_sizes.length ∧
    (∀ bs, bs ∈ mk.class_sizes → 8 ≤ bs ∧ 8 ∣ bs ∧ bs ≤ 2 ^ 35) ∧
    ∀ i start count, (expected_carving total mk.class_sizes 0)[i]? = some (start, count) →
      ∀ fuel, count ≤ fuel →
        mk_chain mk.link fuel (mk.free_lists i) =
          block_run (pool + start) (mk.class_sizes.getD i 0) count := by
  unfold create_mk_allocator at h
  by_cases hp : pool = 0
  · simp [hp] at h
  · simp only [hp, if_false, Option.some.injEq] at h
    obtain ⟨k, hk, e, -, -⟩ := mk_class_sizes_spec (total / 2) 32 0 (by omega)
    simp only [Nat.zero_add] at e
    have hcs : mk.class_sizes = (List.range k).map (fun j => 16 * 2 ^ j) := by
      rw [← h]; exact e
    have hall : ∀ bs, bs ∈ mk.class_sizes → 8 ≤ bs ∧ 8 ∣ bs ∧ bs ≤ 2 ^ 35 := by
      intro bs hbs
      rw [hcs, List.mem_map] at hbs
      obtain ⟨j, hj, rfl⟩ := hbs
      rw [List.mem_range] at hj
      have h1 : 1 ≤ 2 ^ j := Nat.one_le_two_pow
      have h2 : (2 : Nat) ^ j ≤ 2 ^ 31 := Nat.pow_le_pow_right (by omega) (by omega)
      refine ⟨by omega, ⟨2 * 2 ^ j, by omega⟩, ?_⟩
      have : (2 : Nat) ^ 35 = 16 * 2 ^ 31 := by norm_num
      omega
    have hlen : mk.class_sizes.length ≤ 32 := by
      rw [hcs, List.length_map, List.length_range]; exact hk
    refine ⟨by rw [← h], by rw [← h], hall, ?_⟩
    intro i start count hi fuel hfuel
    obtain ⟨-, -, k3⟩ := mk_carve_classes_spec pool total (Nat.pos_of_ne_zero hp)
      mk.class_sizes 0 (fun _ => 0) words 0 hall (by omega) (Nat.dvd_zero _) (Nat.zero_le _)
      (by omega) (fun _ _ => rfl)
    have := k3 i start count hi (fuel - count)
    rw [Nat.sub_add_cancel hfuel, Nat.zero_add] at this
    rw [← this, ← h]

/-- C16 (segregated carving count): for every `total_size`, the expected carving has one
entry per class, and for every class `i` with entry `(start, count)`: `start` is the running
offset, the bytes of the blocks of all earlier classes; `count` is at most 100 and is the
smaller of `(total_size / 10) / class_sizes[i]` clamped to the range from 1 to 100 and the
number of blocks of that size that fit between `start` and `total_size`; and free list `i` of
the allocator that `create_mk_allocator` returns holds exactly `count` blocks.  With a
1024-byte pool the counts are 6, 3, 1, 1, 1, and 0 for the 512-byte class. -/
theorem segregated_carving_count (pool : Nat) (words : Nat → Nat) (total_size : Nat)
    (mk : McKusickKarelsAllocator)
    (h : create_mk_allocator pool words total_size = some mk) :
    (expected_carving total_size mk.class_sizes 0).length = mk.num_classes ∧
    (∀ i start count,
      (expected_carving total_size mk.class_sizes 0)[i]? = some (start, count) →
      start = ∑ j in Finset.range i,
        ((expected_carving total_size mk.class_sizes 0).getD j (0, 0)).2 *
          mk.class_sizes.getD j 0 ∧
      count ≤ 100 ∧
      count = min (max 1 (min 100 (total_size / 10 / mk.class_sizes.getD i 0)))
        ((total_size - start) / mk.class_sizes.getD i 0) ∧
      ∀ fuel, 100 ≤ fuel → (mk_chain mk.link fuel (mk.free_lists i)).length = count) ∧
    (total_size = 1024 →
      (expected_carving total_size mk.class_sizes 0).map Prod.snd = [6, 3, 1, 1, 1, 0]) := by
  obtain ⟨-, hnum, hall, hchain⟩ := create_mk_carving pool words total_size mk h
  refine ⟨by rw [expected_carving_length, hnum], ?_, ?_⟩
  · intro i start count hi
    obtain ⟨-, -, -, b4, b5⟩ := expected_carving_bounds total_size mk.class_sizes 0
      (Nat.zero_le _) (Nat.dvd_zero _) (fun bs hbs => (hall bs hbs).2.1) i start count hi
    have hs := expected_carving_start total_size mk.class_sizes 0 i start count hi
    rw [Nat.zero_add] at hs
    refine ⟨hs, b4, b5, ?_⟩
    intro fuel hfuel
    rw [hchain i start count hi fuel (by omega), length_block_run]
  · intro hT
    subst hT
    have hcs : mk.class_sizes = [16, 32, 64, 128, 256, 512] := by
      unfold create_mk_allocator at h
      by_cases hp : pool = 0
      · simp [hp] at h
      · simp only [hp, if_false, Option.some.injEq] at h
        rw [← h]
        show mk_class_sizes (1024 / 2) MK_NUM_SIZE_CLASSES 0 = _
        decide
    rw [hcs]
    decide

/-- Witness for C16: the free lists of the 1024-byte segregated pool at address 4096 hold
6, 3, 1, 1, 1 and 0 blocks. -/
theorem segregated_carving_count_witness :
    ∃ mk, create_mk_allocator 4096 demo_words 1024 = some mk ∧
      (expected_carving 1024 mk.class_sizes 0) =
        [(0, 6), (96, 3), (192, 1), (256, 1), (384, 1), (640, 0)] ∧
      (mk_chain mk.link 100 (mk.free_lists 0)).length = 6 ∧
      (mk_chain mk.link 100 (mk.free_lists 1)).length = 3 ∧
      (mk_chain mk.link 100 (mk.free_lists 2)).length = 1 ∧
      (mk_chain mk.link 100 (mk.free_lists 3)).length = 1 ∧
      (mk_chain mk.link 100 (mk.free_lists 4)).length = 1 ∧
      (mk_chain mk.link 100 (mk.free_lists 5)).length = 0 :=
  have h : create_mk_allocator 4096 demo_words 1024 = some _ := rfl
  have hw := (segregated_carving_count 4096 demo_words 1024 _ h).2.1
  ⟨_, h, by decide,
    (hw 0 0 6 (by decide)).2.2.2 100 (le_refl _),
    (hw 1 96 3 (by decide)).2.2.2 100 (le_refl _),
    (hw 2 192 1 (by decide)).2.2.2 100 (le_refl _),
    (hw 3 256 1 (by decide)).2.2.2 100 (le_refl _),
    (hw 4 384 1 (by decide)).2.2.2 100 (le_refl _),
    (hw 5 640 0 (by decide)).2.2.2 100 (le_refl _)⟩

/-- C15 (segregated carving fits the pool): for every `total_size`, the blocks on the free
lists of the allocator that `create_mk_allocator` returns (a walk of 100 steps reaches all of
them) start at offsets that are multiples of the pointer size, lie inside the pool with their
whole class size, occur once only, and occupy pairwise disjoint byte ranges; the sum over the
classes of the number of blocks times the class size is at most `total_size`. -/
theorem segregated_carving_fits (pool : Nat) (words : Nat → Nat) (total_size : Nat)
    (mk : McKusickKarelsAllocator)
    (h : create_mk_allocator pool words total_size = some mk) (fuel : Nat)
    (hfuel : 100 ≤ fuel) :
    (∀ i, i < mk.num_classes →
      mk_chain mk.link fuel (mk.free_lists i) = mk_chain mk.link 100 (mk.free_lists i)) ∧
    (∀ i b, i < mk.num_classes → b ∈ mk_chain mk.link fuel (mk.free_lists i) →
      ∃ o, b = mk.memory_pool + o ∧ 8 ∣ o ∧ o + mk.class_sizes.getD i 0 ≤ total_size) ∧
    (∀ i, i < mk.num_classes → (mk_chain mk.link fuel (mk.free_lists i)).Nodup) ∧
    (∀ i j b1 b2, i < mk.num_classes → j < mk.num_classes →
      b1 ∈ mk_chain mk.link fuel (mk.free_lists i) →
      b2 ∈ mk_chain mk.link fuel (mk.free_lists j) → (i ≠ j ∨ b1 ≠ b2) →
      b1 + mk.class_sizes.getD i 0 ≤ b2 ∨ b2 + mk.class_sizes.getD j 0 ≤ b1) ∧
    ∑ i in Finset.range mk.num_classes,
      (mk_chain mk.link fuel (mk.free_lists i)).length * mk.class_sizes.getD i 0 ≤
        total_size := by
  obtain ⟨hpool, hnum, hall, hchain⟩ := create_mk_carving pool words total_size mk h
  -- the run of blocks behind every list
  have hrun : ∀ i, i < mk.num_classes → ∃ s c,
      (expected_carving total_size mk.class_sizes 0)[i]? = some (s, c) ∧
      (expected_carving total_size mk.class_sizes 0).getD i (0, 0) = (s, c) ∧
      (∀ f, 100 ≤ f → mk_chain mk.link f (mk.free_lists i) =
        block_run (pool + s) (mk.class_sizes.getD i 0) c) ∧
      8 ∣ s ∧ s + c * mk.class_sizes.getD i 0 ≤ total_size ∧
      8 ≤ mk.class_sizes.getD i 0 ∧ 8 ∣ mk.class_sizes.getD i 0 := by
    intro i hi
    obtain ⟨s, c, e1, e2⟩ := expected_carving_get total_size mk.class_sizes 0 i (by omega)
    obtain ⟨-, b2, b3, b4, -⟩ := expected_carving_bounds total_size mk.class_sizes 0
      (Nat.zero_le _) (Nat.dvd_zero _) (fun bs hbs => (hall bs hbs).2.1) i s c e1
    have hmem : mk.class_sizes.getD i 0 ∈ mk.class_sizes := by
      rw [List.getD_eq_getElem _ _ (by omega)]
      exact List.getElem_mem _
    obtain ⟨c1, c2, -⟩ := hall _ hmem
    exact ⟨s, c, e1, e2, fun f hf => hchain i s c e1 f (by omega), b2, b3, c1, c2⟩
  refine ⟨?_, ?_, ?_, ?_, ?_⟩
  · intro i hi
    obtain ⟨s, c, -, -, e3, -⟩ := hrun i hi
    rw [e3 fuel hfuel, e3 100 (le_refl _)]
  · intro i b hi hb
    obtain ⟨s, c, -, -, e3, e4, e5, e6, e7⟩ := hrun i hi
    rw [e3 fuel hfuel] at hb
    obtain ⟨j, hj, rfl⟩ := (mem_block_run _ _ _ _).mp hb
    refine ⟨s + j * mk.class_sizes.getD i 0, by rw [hpool]; omega,
      (Nat.dvd_add_right e4).mpr (Dvd.dvd.mul_left e7 _), ?_⟩
    have : (j + 1) * mk.class_sizes.getD i 0 ≤ c * mk.class_sizes.getD i 0 :=
      Nat.mul_le_mul_right _ hj
    rw [Nat.succ_mul] at this
    omega
  · intro i hi
    obtain ⟨s, c, -, -, e3, -, -, e6, -⟩ := hrun i hi
    rw [e3 fuel hfuel]
    exact nodup_block_run _ _ (by omega) _
  · intro i j b1 b2 hi hj hb1 hb2 hne
    obtain ⟨si, ci, ei1, -, ei3, -, -, ei6, -⟩ := hrun i hi
    obtain ⟨sj, cj, ej1, -, ej3, -, -, ej6, -⟩ := hrun j hj
    rw [ei3 fuel hfuel] at hb1
    rw [ej3 fuel hfuel] at hb2
    obtain ⟨x, hx, rfl⟩ := (mem_block_run _ _ _ _).mp hb1
    obtain ⟨y, hy, rfl⟩ := (mem_block_run _ _ _ _).mp hb2
    have hxi : (x + 1) * mk.class_sizes.getD i 0 ≤ ci * mk.class_sizes.getD i 0 :=
      Nat.mul_le_mul_right _ hx
    have hyj : (y + 1) * mk.class_sizes.getD j 0 ≤ cj * mk.class_sizes.getD j 0 :=
      Nat.mul_le_mul_right _ hy
    rw [Nat.succ_mul] at hxi hyj
    rcases Nat.lt_trichotomy i j with hij | hij | hij
    · have := expected_carving_order total_size mk.class_sizes 0 (Nat.zero_le _)
        i j si ci sj cj hij ei1 ej1
      left; omega
    · subst hij
      rw [ei1] at ej1
      simp only [Option.some.injEq, Prod.mk.injEq] at ej1
      obtain ⟨rfl, rfl⟩ := ej1
      rcases Nat.lt_trichotomy x y with hxy | hxy | hxy
      · have : (x + 1) * mk.class_sizes.getD i 0 ≤ y * mk.class_sizes.getD i 0 :=
          Nat.mul_le_mul_right _ hxy
        rw [Nat.succ_mul] at this
        left; omega
      · subst hxy
        rcases hne with h1 | h1
        · exact (h1 rfl).elim
        · exact (h1 rfl).elim
      · have : (y + 1) * mk.class_sizes.getD i 0 ≤ x * mk.class_sizes.getD i 0 :=
          Nat.mul_le_mul_right _ hxy
        rw [Nat.succ_mul] at this
        right; omega
    · have := expected_carving_order total_size mk.class_sizes 0 (Nat.zero_le _)
        j i sj cj si ci hij ej1 ei1
      right; omega
  · have hsum := expected_carving_sum total_size mk.class_sizes 0 (Nat.zero_le _)
    rw [Nat.zero_add, ← hnum] at hsum
    refine le_trans (le_of_eq ?_) hsum
    apply Finset.sum_congr rfl
    intro i hi
    rw [Finset.mem_range] at hi
    obtain ⟨s, c, -, e2, e3, -⟩ := hrun i hi
    rw [e3 fuel hfuel, length_block_run, e2]

/-- Witness for C15: on the 1024-byte segregated pool at address 4096 the 16-byte class holds
the blocks at offsets 80 down to 0 and the carved blocks take 640 bytes in all. -/
theorem segregated_carving_fits_witness :
    ∃ mk, create_mk_allocator 4096 demo_words 1024 = some mk ∧
      mk_chain mk.link 100 (mk.free_lists 0) = [4176, 4160, 4144, 4128, 4112, 4096] ∧
      mk_chain mk.link 100 (mk.free_lists 1) = [4256, 4224, 4192] ∧
      ∑ i in Finset.range mk.num_classes,
        (mk_chain mk.link 100 (mk.free_lists i)).length * mk.class_sizes.getD i 0 ≤ 1024 :=
  have h : create_mk_allocator 4096 demo_words 1024 = some _ := rfl
  have hw := segregated_carving_fits 4096 demo_words 1024 _ h 100 (le_refl _)
  ⟨_, h, by decide, by decide, hw.2.2.2.2⟩

/-! ## Segregated engine: the store of `mk_free` -/

theorem mk_store_outside (records : MKRecords) (mk : McKusickKarelsAllocator)
    (ptr value : Nat) (hal : ptr % 8 = 0) (hout : mk_outside_records records ptr) :
    mk_store records mk ptr value =
      .done { mk with link := Function.update mk.link ptr value } := by
  obtain ⟨h1, h2, h3⟩ := hout
  unfold mk_store
  simp only [hal, ne_eq, not_true_eq_false, if_false, h1, h2, h3]

/-- Addresses inside the records of the allocator, on the fresh 1024-byte segregated pool with
the records of the worked examples.  `mk_free(&free_lists[2], 16)` selects class 0 and stores
the head of list 0 in the head of list 2, which held the block at offset 192.
`mk_free(&class_sizes[0], 16)` stores the head of list 0 in the size of class 0, so the
class table changes and `used_size` is lowered by that address. -/
theorem segregated_free_into_records :
    ∃ mk q1 q2, create_mk_allocator 4096 demo_words 1024 = some mk ∧
      mk.free_lists 0 = 4176 ∧ mk.free_lists 2 = 4288 ∧ mk.class_sizes.getD 0 0 = 16 ∧
      mk.used_size = 0 ∧
      mk_free demo_records mk (demo_records.lists + 8 * 2) 16 = .done q1 ∧
      q1.free_lists 2 = 4176 ∧ q1.free_lists 0 = demo_records.lists + 8 * 2 ∧
      mk_free demo_records mk (demo_records.sizes + 8 * 0) 16 = .done q2 ∧
      q2.class_sizes.getD 0 0 = 4176 ∧ q2.used_size = 2 ^ 64 - 4176 :=
  ⟨_, _, _, rfl, by decide, by decide, by decide, by decide, rfl, by decide, by decide, rfl,
    by decide, by decide⟩

/-! ## Live blocks of the segregated engine -/

theorem mk_chain_list (link : Nat → Nat) :
    ∀ (fuel head : Nat), (mk_chain link fuel head).length < fuel →
      MkList link head (mk_chain link fuel head) := by
  intro fuel
  induction fuel with
  | zero =>
    intro head h
    simp at h
  | succ f ih =>
    intro head h
    rw [mk_chain] at h ⊢
    by_cases h0 : head = 0
    · subst h0
      simp only [if_true]
      exact MkList.nil
    · simp only [h0, if_false] at h ⊢
      refine MkList.cons head _ h0 (ih _ ?_)
      simp only [List.length_cons] at h
      omega

/-- A chain that does not pass through the address `p` is not affected by a store to `p`. -/
theorem mk_list_update (link : Nat → Nat) (p v : Nat) (head : Nat) (l : List Nat)
    (h : MkList link head l) (hp : p ∉ l) : MkList (Function.update link p v) head l := by
  induction h with
  | nil => exact MkList.nil
  | cons head rest h0 _ ih =>
    have hne : head ≠ p := by
      intro e
      apply hp
      rw [e]
      exact List.mem_cons_self _ _
    refine MkList.cons head rest h0 ?_
    rw [Function.update_noteq hne]
    exact ih (fun hin => hp (List.mem_cons_of_mem _ hin))

theorem mk_list_head (link : Nat → Nat) (head : Nat) (l : List Nat) (h : MkList link head l)
    (h0 : head ≠ 0) : ∃ rest, l = head :: rest ∧ MkList link (link head) rest := by
  cases h with
  | nil => exact (h0 rfl).elim
  | cons _ rest _ hr => exact ⟨rest, rfl, hr⟩

theorem mk_class_index_congr (mk mk2 : McKusickKarelsAllocator) (size : Nat)
    (h1 : mk2.class_sizes = mk.class_sizes) (h2 : mk2.num_classes = mk.num_classes) :
    ∀ (fuel idx : Nat), mk_class_index mk2 size fuel idx = mk_class_index mk size fuel idx := by
  intro fuel
  induction fuel with
  | zero => intro idx; rfl
  | succ f ih =>
    intro idx
    rw [mk_class_index, mk_class_index, h1, h2, ih]

/-- Two different blocks carved by the constructor, of one class or of two, occupy disjoint
byte ranges. -/
theorem mk_run_apart (mk : McKusickKarelsAllocator) (i j x y : Nat)
    (hi : i < mk.class_sizes.length) (hj : j < mk.class_sizes.length)
    (hx : x ∈ mk_run mk i) (hy : y ∈ mk_run mk j) (hne : i ≠ j ∨ x ≠ y) :
    x + mk.class_sizes.getD i 0 ≤ y ∨ y + mk.class_sizes.getD j 0 ≤ x := by
  obtain ⟨si, ci, ei1, ei2⟩ := expected_carving_get mk.total_size mk.class_sizes 0 i hi
  obtain ⟨sj, cj, ej1, ej2⟩ := expected_carving_get mk.total_size mk.class_sizes 0 j hj
  simp only [mk_run, ei2] at hx
  simp only [mk_run, ej2] at hy
  obtain ⟨a, ha, rfl⟩ := (mem_block_run _ _ _ _).mp hx
  obtain ⟨b, hb, rfl⟩ := (mem_block_run _ _ _ _).mp hy
  have hai : (a + 1) * mk.class_sizes.getD i 0 ≤ ci * mk.class_sizes.getD i 0 :=
    Nat.mul_le_mul_right _ ha
  have hbj : (b + 1) * mk.class_sizes.getD j 0 ≤ cj * mk.class_sizes.getD j 0 :=
    Nat.mul_le_mul_right _ hb
  rw [Nat.succ_mul] at hai hbj
  rcases Nat.lt_trichotomy i j with hij | hij | hij
  · have := expected_carving_order mk.total_size mk.class_sizes 0 (Nat.zero_le _)
      i j si ci sj cj hij ei1 ej1
    left; omega
  · subst hij
    rw [ei1] at ej1
    simp only [Option.some.injEq, Prod.mk.injEq] at ej1
    obtain ⟨rfl, rfl⟩ := ej1
    rcases Nat.lt_trichotomy a b with hab | hab | hab
    · have : (a + 1) * mk.class_sizes.getD i 0 ≤ b * mk.class_sizes.getD i 0 :=
        Nat.mul_le_mul_right _ hab
      rw [Nat.succ_mul] at this
      left; omega
    · subst hab
      rcases hne with h1 | h1
      · exact (h1 rfl).elim
      · exact (h1 rfl).elim
    · have : (b + 1) * mk.class_sizes.getD i 0 ≤ a * mk.class_sizes.getD i 0 :=
        Nat.mul_le_mul_right _ hab
      rw [Nat.succ_mul] at this
      right; omega
  · have := expected_carving_order mk.total_size mk.class_sizes 0 (Nat.zero_le _)
      j i sj cj si ci hij ej1 ei1
    right; omega

/-- A block carved by the constructor lies inside the pool. -/
theorem mk_run_inside (mk : McKusickKarelsAllocator)
    (hsz : ∀ bs, bs ∈ mk.class_sizes → 8 ≤ bs ∧ 8 ∣ bs) (i x : Nat)
    (hi : i < mk.class_sizes.length) (hx : x ∈ mk_run mk i) :
    mk.memory_pool ≤ x ∧ x + mk.class_sizes.getD i 0 ≤ mk.memory_pool + mk.total_size ∧
      0 < mk.class_sizes.getD i 0 := by
  obtain ⟨si, ci, ei1, ei2⟩ := expected_carving_get mk.total_size mk.class_sizes 0 i hi
  simp only [mk_run, ei2] at hx
  obtain ⟨a, ha, rfl⟩ := (mem_block_run _ _ _ _).mp hx
  obtain ⟨-, -, b3, -, -⟩ := expected_carving_bounds mk.total_size mk.class_sizes 0
    (Nat.zero_le _) (Nat.dvd_zero _) (fun bs hbs => (hsz bs hbs).2) i si ci ei1
  have hai : (a + 1) * mk.class_sizes.getD i 0 ≤ ci * mk.class_sizes.getD i 0 :=
    Nat.mul_le_mul_right _ ha
  rw [Nat.succ_mul] at hai
  have hmem : mk.class_sizes.getD i 0 ∈ mk.class_sizes := by
    rw [List.getD_eq_getElem _ _ hi]
    exact List.getElem_mem _
  have := (hsz _ hmem).1
  exact ⟨by omega, by omega, by omega⟩

theorem mk_class_of_congr (mk mk2 : McKusickKarelsAllocator) (size : Nat)
    (h1 : mk2.class_sizes = mk.class_sizes) (h2 : mk2.num_classes = mk.num_classes) :
    mk_class_of mk2 size = mk_class_of mk size := by
  unfold mk_class_of
  rw [h2]
  exact mk_class_index_congr mk mk2 size h1 h2 _ _

theorem create_mk_inv (records : MKRecords) (pool : Nat) (words : Nat → Nat) (total : Nat)
    (mk : McKusickKarelsAllocator) (hal : pool % 8 = 0)
    (hout : ∀ a, pool ≤ a → a + 8 ≤ pool + total → mk_outside_records records a)
    (h : create_mk_allocator pool words total = some mk) :
    MKInv records mk [] (mk_run mk) := by
  obtain ⟨hpool, hnum, hall, hchain⟩ := create_mk_carving pool words total mk h
  have hfields : mk.total_size = total ∧ pool ≠ 0 := by
    unfold create_mk_allocator at h
    by_cases hp : pool = 0
    · simp [hp] at h
    · simp only [hp, if_false, Option.some.injEq] at h
      exact ⟨by rw [← h], hp⟩
  obtain ⟨htot, hp0⟩ := hfields
  have hsz : ∀ bs, bs ∈ mk.class_sizes → 8 ≤ bs ∧ 8 ∣ bs :=
    fun bs hbs => ⟨(hall bs hbs).1, (hall bs hbs).2.1⟩
  refine ⟨hnum, hsz, by omega, by rw [hpool]; exact hal,
    by rw [hpool, htot]; exact hout, ?_, fun _ _ _ hx => hx, ?_, ?_, List.nodup_nil, ?_⟩
  · intro i hi
    obtain ⟨s, c, e1, e2⟩ := expected_carving_get total mk.class_sizes 0 i (by omega)
    have hc := hchain i s c e1 (c + 1) (by omega)
    have hl := mk_chain_list mk.link (c + 1) (mk.free_lists i)
      (by rw [hc, length_block_run]; omega)
    rw [hc] at hl
    simp only [mk_run, htot, e2, hpool]
    exact hl
  · intro i hi
    obtain ⟨-, -, hpos⟩ : True ∧ True ∧ 0 < mk.class_sizes.getD i 0 := by
      have hmem : mk.class_sizes.getD i 0 ∈ mk.class_sizes := by
        rw [List.getD_eq_getElem _ _ (by omega)]
        exact List.getElem_mem _
      have := (hsz _ hmem).1
      exact ⟨trivial, trivial, by omega⟩
    exact nodup_block_run _ _ hpos _
  · intro p s hps
    simp at hps
  · intro i _ p s hps
    simp at hps

theorem mk_allocate_inv (records : MKRecords) (mk : McKusickKarelsAllocator)
    (live : List (Nat × Nat)) (chains : Nat → List Nat) (size : Nat)
    (hinv : MKInv records mk live chains) :
    ∃ chains2, MKInv records (mk_allocate mk size).1
      (if (mk_allocate mk size).2 = 0 then live else ((mk_allocate mk size).2, size) :: live)
      chains2 := by
  by_cases hmain : size ≠ 0 ∧ mk_class_of mk size < mk.num_classes ∧
      mk.free_lists (mk_class_of mk size) ≠ 0
  · obtain ⟨hs0, hc, hne⟩ := hmain
    have e : mk_allocate mk size =
        ({ mk with
            free_lists := Function.update mk.free_lists (mk_class_of mk size)
              (mk.link (mk.free_lists (mk_class_of mk size)))
            used_size := size_wrap (mk.used_size +
              mk.class_sizes.getD (mk_class_of mk size) 0) },
          mk.free_lists (mk_class_of mk size)) := by
      unfold mk_allocate
      unfold mk_class_of at hc hne ⊢
      have h1 : ¬(mk_class_index mk size mk.num_classes 0 ≥ mk.num_classes) := by omega
      simp only [hs0, if_false, h1, hne, ne_eq, not_false_eq_true, if_true]
    rw [e]
    simp only [hne, if_false]
    generalize hcdef : mk_class_of mk size = c at *
    obtain ⟨rest, hcs, hr⟩ := mk_list_head mk.link _ _ (hinv.chain c hc) hne
    have hnd := hinv.chain_nodup c hc
    rw [hcs] at hnd
    have hhead : mk.free_lists c ∈ chains c := by rw [hcs]; exact List.mem_cons_self _ _
    have hcong : ∀ s, mk_class_of
        { mk with
          free_lists := Function.update mk.free_lists c (mk.link (mk.free_lists c))
          used_size := size_wrap (mk.used_size + mk.class_sizes.getD c 0) } s =
        mk_class_of mk s := fun s => mk_class_of_congr mk _ s rfl rfl
    refine ⟨Function.update chains c rest, hinv.num, hinv.sizes, hinv.pool_pos, hinv.aligned,
      hinv.apart_records, ?_, ?_, ?_, ?_, ?_, ?_⟩
    · intro i hi
      simp only
      by_cases hic : i = c
      · subst hic
        rw [Function.update_same, Function.update_same]
        exact hr
      · rw [Function.update_noteq hic, Function.update_noteq hic]
        exact hinv.chain i hi
    · intro i hi x hx
      show x ∈ mk_run mk i
      by_cases hic : i = c
      · subst hic
        rw [Function.update_same] at hx
        exact hinv.chain_run i hi x (by rw [hcs]; exact List.mem_cons_of_mem _ hx)
      · rw [Function.update_noteq hic] at hx
        exact hinv.chain_run i hi x hx
    · intro i hi
      by_cases hic : i = c
      · subst hic
        rw [Function.update_same]
        exact (List.nodup_cons.mp hnd).2
      · rw [Function.update_noteq hic]
        exact hinv.chain_nodup i hi
    · intro p s hps
      rw [hcong]
      show mk_class_of mk s < mk.num_classes ∧ p ∈ mk_run mk (mk_class_of mk s)
      rcases List.mem_cons.mp hps with e1 | hps
      · simp only [Prod.mk.injEq] at e1
        obtain ⟨rfl, rfl⟩ := e1
        rw [hcdef]
        exact ⟨hc, hinv.chain_run c hc _ hhead⟩
      · exact hinv.live_run p s hps
    · rw [List.map_cons, List.nodup_cons]
      refine ⟨?_, hinv.live_nodup⟩
      intro hin
      obtain ⟨⟨p, s⟩, hps, hp⟩ := List.mem_map.mp hin
      simp only at hp
      rw [hp] at hps
      exact hinv.apart c hc _ s hps hhead
    · intro i hi p s hps
      have hi2 : i < mk.num_classes := hi
      rcases List.mem_cons.mp hps with e1 | hps1
      · simp only [Prod.mk.injEq] at e1
        obtain ⟨rfl, rfl⟩ := e1
        by_cases hic : i = c
        · subst hic
          rw [Function.update_same]
          exact (List.nodup_cons.mp hnd).1
        · rw [Function.update_noteq hic]
          intro hin
          have h1 := hinv.chain_run i hi2 _ hin
          have h2 := hinv.chain_run c hc _ hhead
          have hnum := hinv.num
          obtain ⟨-, -, hpos1⟩ := mk_run_inside mk hinv.sizes i _ (by omega) h1
          obtain ⟨-, -, hpos2⟩ := mk_run_inside mk hinv.sizes c _ (by omega) h2
          rcases mk_run_apart mk i c _ _ (by omega) (by omega) h1 h2 (Or.inl hic) with t | t
          · omega
          · omega
      · by_cases hic : i = c
        · subst hic
          rw [Function.update_same]
          intro hin
          exact hinv.apart i hi2 p s hps1 (by rw [hcs]; exact List.mem_cons_of_mem _ hin)
        · rw [Function.update_noteq hic]
          exact hinv.apart i hi2 p s hps1
  · have e : mk_allocate mk size = (mk, 0) := by
      unfold mk_allocate
      unfold mk_class_of at hmain
      by_cases hs0 : size = 0
      · simp only [hs0, if_true]
      · simp only [hs0, if_false]
        by_cases h1 : mk_class_index mk size mk.num_classes 0 ≥ mk.num_classes
        · simp only [h1, if_true]
        · simp only [h1, if_false]
          have h2 : mk.free_lists (mk_class_index mk size mk.num_classes 0) = 0 := by
            by_contra hc
            exact hmain ⟨hs0, by omega, hc⟩
          simp only [h2, ne_eq, not_true_eq_false, if_false]
    rw [e]
    simp only [if_true]
    exact ⟨chains, hinv⟩

/-- A block carved by the constructor in a pointer-aligned pool starts at a multiple of 8. -/
theorem mk_run_aligned (mk : McKusickKarelsAllocator)
    (hsz : ∀ bs, bs ∈ mk.class_sizes → 8 ≤ bs ∧ 8 ∣ bs) (i x : Nat)
    (hi : i < mk.class_sizes.length) (hx : x ∈ mk_run mk i) (hal : mk.memory_pool % 8 = 0) :
    x % 8 = 0 := by
  obtain ⟨si, ci, ei1, ei2⟩ := expected_carving_get mk.total_size mk.class_sizes 0 i hi
  simp only [mk_run, ei2] at hx
  obtain ⟨a, ha, rfl⟩ := (mem_block_run _ _ _ _).mp hx
  obtain ⟨-, b2, -, -, -⟩ := expected_carving_bounds mk.total_size mk.class_sizes 0
    (Nat.zero_le _) (Nat.dvd_zero _) (fun bs hbs => (hsz bs hbs).2) i si ci ei1
  have hmem : mk.class_sizes.getD i 0 ∈ mk.class_sizes := by
    rw [List.getD_eq_getElem _ _ hi]
    exact List.getElem_mem _
  have h8 : 8 ∣ a * mk.class_sizes.getD i 0 := Dvd.dvd.mul_left (hsz _ hmem).2 a
  omega

theorem mk_free_done (records : MKRecords) (mk : McKusickKarelsAllocator)
    (live : List (Nat × Nat)) (chains : Nat → List Nat) (ptr size size2 : Nat)
    (hinv : MKInv records mk live chains) (hl : (ptr, size) ∈ live)
    (hcl : mk_class_of mk size2 = mk_class_of mk size) :
    mk_free records mk ptr size2 =
      .done { mk with
        link := Function.update mk.link ptr (mk.free_lists (mk_class_of mk size))
        free_lists := Function.update mk.free_lists (mk_class_of mk size) ptr
        used_size := size_wrap (mk.used_size + 2 ^ 64 -
          mk.class_sizes.getD (mk_class_of mk size) 0) } := by
  obtain ⟨hc, hrun⟩ := hinv.live_run ptr size hl
  have hnum := hinv.num
  obtain ⟨hin1, hin2, hpos⟩ := mk_run_inside mk hinv.sizes _ ptr (by omega) hrun
  have hal := mk_run_aligned mk hinv.sizes _ ptr (by omega) hrun hinv.aligned
  have hmem : mk.class_sizes.getD (mk_class_of mk size) 0 ∈ mk.class_sizes := by
    rw [List.getD_eq_getElem _ _ (by omega)]
    exact List.getElem_mem _
  have h8 := (hinv.sizes _ hmem).1
  have hout := hinv.apart_records ptr hin1 (by omega)
  have hpool := hinv.pool_pos
  have hp0 : ptr ≠ 0 := by omega
  generalize hcdef : mk_class_of mk size = c at *
  unfold mk_free
  unfold mk_class_of at hcl
  have h1 : ¬(c ≥ mk.num_classes) := by omega
  simp only [hp0, if_false, hcl, h1, mk_store_outside records mk ptr _ hal hout]

theorem mk_free_inv (records : MKRecords) (mk : McKusickKarelsAllocator)
    (live : List (Nat × Nat)) (chains : Nat → List Nat) (ptr size size2 : Nat)
    (q : McKusickKarelsAllocator) (hinv : MKInv records mk live chains)
    (hl : (ptr, size) ∈ live) (hcl : mk_class_of mk size2 = mk_class_of mk size)
    (hq : mk_free records mk ptr size2 = .done q) :
    ∃ chains2, MKInv records q (live.erase (ptr, size)) chains2 := by
  rw [mk_free_done records mk live chains ptr size size2 hinv hl hcl] at hq
  simp only [Outcome.done.injEq] at hq
  subst hq
  obtain ⟨hc, hrun⟩ := hinv.live_run ptr size hl
  have hnum := hinv.num
  obtain ⟨hin1, -, -⟩ := mk_run_inside mk hinv.sizes _ ptr (by omega) hrun
  have hpool := hinv.pool_pos
  have hp0 : ptr ≠ 0 := by omega
  generalize hcdef : mk_class_of mk size = c at *
  have hcong : ∀ s, mk_class_of
      { mk with
        link := Function.update mk.link ptr (mk.free_lists c)
        free_lists := Function.update mk.free_lists c ptr
        used_size := size_wrap (mk.used_size + 2 ^ 64 - mk.class_sizes.getD c 0) } s =
      mk_class_of mk s := fun s => mk_class_of_congr mk _ s rfl rfl
  have hlnd : live.Nodup := List.Nodup.of_map _ hinv.live_nodup
  refine ⟨Function.update chains c (ptr :: chains c), hinv.num, hinv.sizes, hinv.pool_pos,
    hinv.aligned, hinv.apart_records, ?_, ?_, ?_, ?_, ?_, ?_⟩
  · intro i hi
    have hi2 : i < mk.num_classes := hi
    simp only
    by_cases hic : i = c
    · subst hic
      rw [Function.update_same, Function.update_same]
      refine MkList.cons ptr _ hp0 ?_
      rw [Function.update_same]
      exact mk_list_update mk.link ptr _ _ _ (hinv.chain i hi2) (hinv.apart i hi2 ptr size hl)
    · rw [Function.update_noteq hic, Function.update_noteq hic]
      exact mk_list_update mk.link ptr _ _ _ (hinv.chain i hi2) (hinv.apart i hi2 ptr size hl)
  · intro i hi x hx
    show x ∈ mk_run mk i
    by_cases hic : i = c
    · subst hic
      rw [Function.update_same] at hx
      rcases List.mem_cons.mp hx with e1 | hx
      · rw [e1]; exact hrun
      · exact hinv.chain_run i hi x hx
    · rw [Function.update_noteq hic] at hx
      exact hinv.chain_run i hi x hx
  · intro i hi
    have hi2 : i < mk.num_classes := hi
    by_cases hic : i = c
    · subst hic
      rw [Function.update_same]
      exact List.nodup_cons.mpr ⟨hinv.apart i hi2 ptr size hl, hinv.chain_nodup i hi2⟩
    · rw [Function.update_noteq hic]
      exact hinv.chain_nodup i hi2
  · intro p s hps
    rw [hcong]
    exact hinv.live_run p s (List.mem_of_mem_erase hps)
  · exact List.Nodup.sublist ((List.erase_sublist _ _).map _) hinv.live_nodup
  · intro i hi p s hps
    have hi2 : i < mk.num_classes := hi
    have hps2 := List.mem_of_mem_erase hps
    by_cases hic : i = c
    · subst hic
      rw [Function.update_same]
      intro hin
      rcases List.mem_cons.mp hin with e1 | hin
      · subst e1
        have hne := ((List.Nodup.mem_erase_iff hlnd).mp hps).1
        have := List.inj_on_of_nodup_map hinv.live_nodup hps2 hl rfl
        exact hne this
      · exact hinv.apart i hi2 p s hps2 hin
    · rw [Function.update_noteq hic]
      exact hinv.apart i hi2 p s hps2

theorem mk_trace_inv (records : MKRecords) (mk : McKusickKarelsAllocator)
    (live : List (Nat × Nat)) (h : MKTrace records mk live) :
    ∃ chains, MKInv records mk live chains := by
  induction h with
  | create pool words total mk hal hout hc =>
    exact ⟨_, create_mk_inv records pool words total mk hal hout hc⟩
  | allocate mk live size _ ih =>
    obtain ⟨chains, hinv⟩ := ih
    exact mk_allocate_inv records mk live chains size hinv
  | free mk live ptr size size2 q _ hl hcl hq ih =>
    obtain ⟨chains, hinv⟩ := ih
    exact mk_free_inv records mk live chains ptr size size2 q hinv hl hcl hq

/-! ## Live blocks of the segregated engine never overlap -/

/-- Segregated engine, second half of C23: for a fresh segregated allocator whose pool is
pointer-aligned and apart from the records, used with matching sizes, the live addresses
are pairwise different, each is the start of a block of its class that lies inside the pool
and holds the requested bytes, the blocks of two live addresses are disjoint, and `mk_free`
of a live address with a size of its class runs to completion. -/
theorem segregated_live_blocks_disjoint (records : MKRecords) (mk : McKusickKarelsAllocator)
    (live : List (Nat × Nat)) (h : MKTrace records mk live) :
    (live.map Prod.fst).Nodup ∧
    (∀ p s, (p, s) ∈ live → s ≤ mk_block_size mk s ∧ mk.memory_pool ≤ p ∧
      p + mk_block_size mk s ≤ mk.memory_pool + mk.total_size) ∧
    live.Pairwise (fun a b =>
      ranges_disjoint (a.1, a.1 + mk_block_size mk a.2) (b.1, b.1 + mk_block_size mk b.2)) ∧
    (∀ p s s2, (p, s) ∈ live → mk_class_of mk s2 = mk_class_of mk s →
      ∃ q, mk_free records mk p s2 = .done q ∧ MKTrace records q (live.erase (p, s))) := by
  obtain ⟨chains, hinv⟩ := mk_trace_inv records mk live h
  have hnum := hinv.num
  refine ⟨hinv.live_nodup, ?_, ?_, ?_⟩
  · intro p s hps
    obtain ⟨hc, hrun⟩ := hinv.live_run p s hps
    obtain ⟨i1, i2, -⟩ := mk_run_inside mk hinv.sizes _ p (by omega) hrun
    obtain ⟨-, -, -, hfit⟩ := mk_class_index_spec mk s mk.num_classes 0 (Nat.zero_le _)
      (by omega)
    exact ⟨hfit hc, i1, i2⟩
  · have hpw : live.Pairwise (fun a b => a.1 ≠ b.1) :=
      (List.pairwise_map).mp hinv.live_nodup
    refine List.Pairwise.imp_of_mem ?_ hpw
    intro a b ha hb hab
    obtain ⟨hca, hra⟩ := hinv.live_run a.1 a.2 ha
    obtain ⟨hcb, hrb⟩ := hinv.live_run b.1 b.2 hb
    exact mk_run_apart mk _ _ a.1 b.1 (by omega) (by omega) hra hrb (Or.inr hab)
  · intro p s s2 hps hcl
    have e := mk_free_done records mk live chains p s s2 hinv hps hcl
    exact ⟨_, e, MKTrace.free mk live p s s2 _ h hps hcl e⟩

/-- On the 1024-byte segregated pool at address 4096 two requests of 10 bytes are live at the
addresses 4176 and 4160, 16 bytes apart. -/
theorem segregated_live_blocks_disjoint_witness :
    ∃ mk, MKTrace demo_records mk [(4160, 10), (4176, 10)] ∧ mk_block_size mk 10 = 16 ∧
      ranges_disjoint (4160, 4160 + mk_block_size mk 10) (4176, 4176 + mk_block_size mk 10) :=
  have m0 : MKTrace demo_records _ [] :=
    MKTrace.create 4096 demo_words 1024 _ (by decide)
      (by
        intro a h1 h2
        exact ⟨by simp only [demo_records, MK_NUM_SIZE_CLASSES]; omega,
          by simp only [demo_records, MK_NUM_SIZE_CLASSES]; omega,
          by simp only [demo_records]; omega⟩) rfl
  have m1 : MKTrace demo_records _ _ := MKTrace.allocate _ _ 10 m0
  have m2 : MKTrace demo_records _ _ := MKTrace.allocate _ _ 10 m1
  have m : MKTrace demo_records _ [(4160, 10), (4176, 10)] := m2
  ⟨_, m, by decide,
    (List.pairwise_cons.mp (segregated_live_blocks_disjoint demo_records _ _ m).2.2.1).1
      (4176, 10) (by decide)⟩

/-! ## Facade -/

/-- C17 (facade null and zero handling): for every handle state of either engine,
`allocate_memory` returns null and changes nothing when the handle is null or `size` is 0, and
`free_memory` changes nothing when the handle is null or the pointer is null, whatever `size`
is. -/
theorem facade_null_zero (wide : Bool) (hdr : Nat) (records : MKRecords) :
    (∀ size, allocate_memory wide hdr none size = .done (none, 0)) ∧
    (∀ mk, allocate_memory wide hdr (some (.mckusick_karels mk)) 0 =
      .done (some (.mckusick_karels mk), 0)) ∧
    (∀ p2, allocate_memory wide hdr (some (.power_of_2 p2)) 0 =
      .done (some (.power_of_2 p2), 0)) ∧
    (∀ ptr size, free_memory hdr records none ptr size = .done none) ∧
    (∀ mk size, free_memory hdr records (some (.mckusick_karels mk)) 0 size =
      .done (some (.mckusick_karels mk))) ∧
    (∀ p2 size, free_memory hdr records (some (.power_of_2 p2)) 0 size =
      .done (some (.power_of_2 p2))) := by
  refine ⟨fun _ => rfl, ?_, ?_, fun _ _ => rfl, ?_, ?_⟩
  · intro mk
    simp [allocate_memory, mk_allocate]
  · intro p2
    simp [allocate_memory, p2_allocate]
  · intro mk size
    simp [free_memory]
  · intro p2 size
    simp [free_memory]

end OsCp
